import Mathlib

/-!
Verification of the paged storage engine (buffer pool, heap file, B+-tree
pages) against its specification.  The definitions below are a shallow
embedding of the C++ sources: page buffers become byte lists (`List Nat`,
each entry one byte), machine integers become `Nat`/`Int` with explicit
wrap-around where it matters, and code that throws becomes `Option`.
-/

/-! ## Field types and sizes (types.hpp, Tuple.hpp) -/

/-- Field type tags, from the sources: INT, DOUBLE, CHAR. -/
inductive type_t
  | INT
  | DOUBLE
  | CHAR
deriving DecidableEq

/-- INT fields occupy 4 bytes. -/
def INT_SIZE : Nat := 4

/-- DOUBLE fields occupy 8 bytes. -/
def DOUBLE_SIZE : Nat := 8

/-- CHAR fields occupy a fixed 64 bytes (null padded). -/
def CHAR_SIZE : Nat := 64

/-- Pages are 4096-byte buffers. -/
def DEFAULT_PAGE_SIZE : Nat := 4096

/-- Byte width of each field type, as in TupleDesc construction. -/
def typeSize : type_t → Nat
  | .INT => INT_SIZE
  | .DOUBLE => DOUBLE_SIZE
  | .CHAR => CHAR_SIZE

/-- A field value as stored.  INT and DOUBLE values are carried by their
little-endian bit pattern (the C++ code only ever memcpy-s them whole),
CHAR values as a byte string. -/
inductive field_t
  | fInt (bits : Nat)
  | fDouble (bits : Nat)
  | fChar (bytes : List Nat)
deriving DecidableEq

/-- Type tag of a field value (Tuple::field_type). -/
def fieldType : field_t → type_t
  | .fInt _ => .INT
  | .fDouble _ => .DOUBLE
  | .fChar _ => .CHAR

/-- A tuple is its ordered field list (Tuple::fields_). -/
abbrev Tuple := List field_t

/-- A tuple descriptor: parallel type and name lists (TupleDesc). -/
structure TupleDesc where
  types : List type_t
  names : List String
deriving DecidableEq

/-- Total byte length of a serialized tuple (TupleDesc::length). -/
def TupleDesc.length (td : TupleDesc) : Nat :=
  (td.types.map typeSize).sum

/-- TupleDesc::compatible: the sizes match and every field has the declared
type. -/
def TupleDesc.compatible (td : TupleDesc) (t : Tuple) : Bool :=
  decide (t.length = td.types.length) &&
    (td.types.zip t).all fun p => decide (fieldType p.2 = p.1)

/-! ## Byte codec (TupleDesc::serialize / deserialize) -/

/-- Little-endian byte list of the low `w` bytes of `v`; models the memcpy
of a `w`-byte scalar out of memory. -/
def toLE : Nat → Nat → List Nat
  | 0, _ => []
  | w + 1, v => v % 256 :: toLE w (v / 256)

/-- Reassemble a little-endian byte list into a natural number; models the
memcpy of a scalar back from the buffer. -/
def fromLE : List Nat → Nat
  | [] => 0
  | b :: bs => b + 256 * fromLE bs

/-- Serialized bytes of one field.  The mismatch arm is unreachable at every
call site because serialization is guarded by a compatibility check
(std::get would throw there). -/
def serializeFieldBody : type_t → field_t → List Nat
  | .INT, .fInt v => toLE INT_SIZE v
  | .DOUBLE, .fDouble v => toLE DOUBLE_SIZE v
  | .CHAR, .fChar s => s.take CHAR_SIZE ++ List.replicate (CHAR_SIZE - s.length) 0
  | _, _ => []

/-- Serialized bytes of a whole tuple: each field at its cumulative offset,
so concatenation in order (TupleDesc::serialize body). -/
def serializeBody : List type_t → Tuple → List Nat
  | ty :: tys, f :: fs => serializeFieldBody ty f ++ serializeBody tys fs
  | _, _ => []

/-- TupleDesc::serialize: checks compatibility first (throws otherwise),
then writes each field at its offset. -/
def TupleDesc.serialize (td : TupleDesc) (t : Tuple) : Option (List Nat) :=
  if td.compatible t then some (serializeBody td.types t) else none

/-- Deserialize one field from the front of a byte list
(TupleDesc::deserialize, single switch arm).  CHAR reads at most CHAR_SIZE

bytes and stops at the first NUL. -/
def deserializeField : type_t → List Nat → field_t
  | .INT, bs => .fInt (fromLE (bs.take INT_SIZE))
  | .DOUBLE, bs => .fDouble (fromLE (bs.take DOUBLE_SIZE))
  | .CHAR, bs => .fChar ((bs.take CHAR_SIZE).takeWhile fun b => b != 0)

/-- TupleDesc::deserialize body: field i is read at offset i, which is the
sum of the previous field widths. -/
def deserializeFrom : List type_t → List Nat → Tuple
  | [], _ => []
  | ty :: tys, bs => deserializeField ty bs :: deserializeFrom tys (bs.drop (typeSize ty))

/-- TupleDesc::deserialize. -/
def TupleDesc.deserialize (td : TupleDesc) (bs : List Nat) : Tuple :=
  deserializeFrom td.types bs

/-- Well-formedness of the scalar bit patterns: they fit their width.  This
is automatic in C++ where the values are machine integers. -/
def scalarWF : field_t → Prop
  | .fInt v => v < 2 ^ (8 * INT_SIZE)
  | .fDouble v => v < 2 ^ (8 * DOUBLE_SIZE)
  | .fChar _ => True

/-- The CHAR normalization performed by a serialize/deserialize round trip:
truncate to CHAR_SIZE bytes, then stop at the first NUL. -/
def charNormalize : field_t → field_t
  | .fChar s => .fChar ((s.take CHAR_SIZE).takeWhile fun b => b != 0)
  | f => f

/-- A CHAR field that is strictly shorter than CHAR_SIZE and has no NUL
byte; scalar fields qualify trivially. -/
def charShortNoNul : field_t → Prop
  | .fChar s => s.length < CHAR_SIZE ∧ ∀ b ∈ s, b ≠ 0
  | _ => True

instance : DecidablePred scalarWF := fun f => by
  unfold scalarWF; cases f <;> infer_instance

instance : DecidablePred charShortNoNul := fun f => by
  unfold charShortNoNul; cases f <;> infer_instance

/-! ### Codec lemmas -/

theorem fromLE_toLE (w : Nat) : ∀ v : Nat, fromLE (toLE w v) = v % 2 ^ (8 * w) := by
  induction w with
  | zero => intro v; simp [toLE, fromLE, Nat.mod_one]
  | succ w ih =>
      intro v
      have h256 : (2 : Nat) ^ (8 * (w + 1)) = 256 * 2 ^ (8 * w) := by
        rw [Nat.mul_succ, pow_add, Nat.mul_comm]; norm_num
      rw [toLE, fromLE, ih, h256, Nat.mod_mul]

theorem toLE_length (w v : Nat) : (toLE w v).length = w := by
  induction w generalizing v with
  | zero => simp [toLE]
  | succ w ih => simp [toLE, ih]

theorem serializeFieldBody_length (ty : type_t) (f : field_t)
    (h : fieldType f = ty) : (serializeFieldBody ty f).length = typeSize ty := by
  cases f <;> cases ty <;> simp_all [fieldType, serializeFieldBody, typeSize, toLE_length]
  omega

theorem takeWhile_append_replicate_zero (a : List Nat) (k : Nat) :
    (a ++ List.replicate k 0).takeWhile (fun b => b != 0) =
      a.takeWhile (fun b => b != 0) := by
  induction a with
  | nil =>
      cases k with
      | zero => simp
      | succ k => simp [List.replicate_succ, List.takeWhile]
  | cons hd tl ih =>
      by_cases h : hd = 0
      · subst h; simp [List.takeWhile]
      · simp only [List.cons_append, List.takeWhile]
        have : (hd != 0) = true := by simpa using h
        simp [this, ih]

theorem takeWhile_eq_self_of_ne_zero (s : List Nat) (h : ∀ b ∈ s, b ≠ 0) :
    s.takeWhile (fun b => b != 0) = s := by
  induction s with
  | nil => rfl
  | cons hd tl ih =>
      have hhd : (hd != 0) = true := by
        simpa using h hd (List.mem_cons_self hd tl)
      simp [List.takeWhile, hhd, ih fun b hb => h b (List.mem_cons_of_mem hd hb)]

theorem deserializeField_append (ty : type_t) (f : field_t) (rest : List Nat)
    (hty : fieldType f = ty) (hwf : scalarWF f) :
    deserializeField ty (serializeFieldBody ty f ++ rest) = charNormalize f := by
  cases f with
  | fInt v =>
      cases hty
      have hlen : (toLE INT_SIZE v).length = INT_SIZE := toLE_length _ _
      simp only [fieldType, serializeFieldBody, deserializeField, charNormalize]
      rw [List.take_left' hlen, fromLE_toLE]
      simp only [scalarWF] at hwf
      simp [Nat.mod_eq_of_lt hwf]
  | fDouble v =>
      cases hty
      have hlen : (toLE DOUBLE_SIZE v).length = DOUBLE_SIZE := toLE_length _ _
      simp only [fieldType, serializeFieldBody, deserializeField, charNormalize]
      rw [List.take_left' hlen, fromLE_toLE]
      simp only [scalarWF] at hwf
      simp [Nat.mod_eq_of_lt hwf]
  | fChar s =>
      cases hty
      have hlen : (s.take CHAR_SIZE ++ List.replicate (CHAR_SIZE - s.length) 0).length
          = CHAR_SIZE := by
        simp [List.length_take]
        omega
      simp only [fieldType, serializeFieldBody, deserializeField, charNormalize]
      rw [List.take_left' hlen]
      exact congrArg _ (takeWhile_append_replicate_zero _ _)

theorem serializeFieldBody_drop (ty : type_t) (f : field_t) (rest : List Nat)
    (hty : fieldType f = ty) :
    (serializeFieldBody ty f ++ rest).drop (typeSize ty) = rest := by
  rw [← serializeFieldBody_length ty f hty, List.drop_left]

theorem deserializeFrom_serializeBody (fs : Tuple) :
    ∀ (tys : List type_t), fs.map fieldType = tys → (∀ f ∈ fs, scalarWF f) →
    ∀ rest : List Nat,
      deserializeFrom tys (serializeBody tys fs ++ rest) = fs.map charNormalize := by
  induction fs with
  | nil =>
      intro tys htys _ rest
      simp at htys
      subst htys
      simp [deserializeFrom]
  | cons f fs ih =>
      intro tys htys hwf rest
      rcases tys with _ | ⟨ty, tys⟩
      · simp at htys
      · simp only [List.map_cons, List.cons.injEq] at htys
        obtain ⟨hty, htys⟩ := htys
        have hwf1 : scalarWF f := hwf f (List.mem_cons_self f fs)
        have hwf2 : ∀ g ∈ fs, scalarWF g := fun g hg => hwf g (List.mem_cons_of_mem f hg)
        simp only [serializeBody, deserializeFrom, List.append_assoc, List.map_cons]
        rw [deserializeField_append ty f _ hty hwf1,
            serializeFieldBody_drop ty f _ hty, ih tys htys hwf2 rest]

theorem compatible_iff_map_fieldType (td : TupleDesc) (t : Tuple) :
    td.compatible t = true ↔ t.map fieldType = td.types := by
  unfold TupleDesc.compatible
  constructor
  · intro h
    simp only [Bool.and_eq_true, decide_eq_true_eq, List.all_eq_true] at h
    obtain ⟨hlen, hall⟩ := h
    apply List.ext_getElem
    · simpa using hlen
    · intro i h1 h2
      have hi : i < td.types.length := by simpa using h2
      have hti : i < t.length := by omega
      have hmem : (td.types[i], t[i]) ∈ td.types.zip t := by
        rw [List.mem_iff_getElem]
        exact ⟨i, by simp [List.length_zip]; omega, by simp⟩
      have := hall _ hmem
      simpa using this
  · intro h
    have hlen : t.length = td.types.length := by
      rw [← h]; simp
    simp only [Bool.and_eq_true, decide_eq_true_eq, List.all_eq_true]
    refine ⟨hlen, ?_⟩
    intro p hp
    rw [List.mem_iff_getElem] at hp
    obtain ⟨i, hi, hpi⟩ := hp
    have hi2 : i < td.types.length := by simp [List.length_zip] at hi; omega
    have hi3 : i < t.length := by omega
    have : p = (td.types[i], t[i]) := by rw [← hpi]; simp
    subst this
    simp only [decide_eq_true_eq]
    have := congrArg (fun l => l.getD i type_t.INT) h
    simpa [List.getD, List.getElem?_eq_getElem, hi2, hi3] using this

theorem charNormalize_eq_self (f : field_t) (h : charShortNoNul f) :
    charNormalize f = f := by
  cases f with
  | fInt v => rfl
  | fDouble v => rfl
  | fChar s =>
      obtain ⟨hlen, hnz⟩ := h
      simp only [charNormalize]
      rw [List.take_of_length_le (Nat.le_of_lt hlen), takeWhile_eq_self_of_ne_zero s hnz]

/-- C8: serializing a compatible tuple succeeds, deserializing the produced
bytes yields the tuple with every CHAR field truncated to CHAR_SIZE bytes
and cut at the first NUL of its padded image, and the round trip is an
exact identity when every CHAR field is shorter than CHAR_SIZE and free of
NUL bytes. -/
theorem tupleDesc_roundTrip_spec (td : TupleDesc) (t : Tuple)
    (hc : td.compatible t = true)
    (hwf : ∀ f ∈ t, scalarWF f) :
    td.serialize t = some (serializeBody td.types t) ∧
    td.deserialize (serializeBody td.types t) = t.map charNormalize ∧
    ((∀ f ∈ t, charShortNoNul f) →
      td.deserialize (serializeBody td.types t) = t) := by
  have hmap : t.map fieldType = td.types := (compatible_iff_map_fieldType td t).mp hc
  have hser : td.serialize t = some (serializeBody td.types t) := by
    unfold TupleDesc.serialize
    rw [hc]
    simp
  have hround : td.deserialize (serializeBody td.types t) = t.map charNormalize := by
    unfold TupleDesc.deserialize
    have := deserializeFrom_serializeBody t td.types hmap hwf []
    simpa using this
  refine ⟨hser, hround, fun hshort => ?_⟩
  rw [hround]
  have : t.map charNormalize = t.map id := by
    apply List.map_congr_left
    intro f hf
    exact charNormalize_eq_self f (hshort f hf)
  simpa using this

/-- C8 witness: a concrete INT+CHAR schema round-trips a concrete tuple. -/
theorem tupleDesc_roundTrip_witness :
    let td : TupleDesc := ⟨[type_t.INT, type_t.CHAR], ["id", "name"]⟩
    let t : Tuple := [field_t.fInt 7, field_t.fChar [104, 105]]
    td.serialize t = some (serializeBody td.types t) ∧
    td.deserialize (serializeBody td.types t) = t.map charNormalize ∧
    ((∀ f ∈ t, charShortNoNul f) →
      td.deserialize (serializeBody td.types t) = t) := by
  exact tupleDesc_roundTrip_spec _ _ (by decide) (by decide)

/-! ## Leaf pages (LeafPage.hpp / LeafPage.cpp) -/

/-- Interpret a 32-bit pattern as the signed machine int it stores. -/
def toSigned32 (v : Nat) : Int :=
  if v < 2 ^ 31 then (v : Int) else (v : Int) - 2 ^ 32

/-- std::get on the key field.  The key column always holds an INT, so the
default arm is unreachable wherever this is applied (std::get would throw). -/
def getFieldInt : field_t → Int
  | .fInt v => toSigned32 v
  | _ => 0

/-- key_at from LeafPage.cpp: deserialize the slot bytes and read the key
field. -/
def key_at (td : TupleDesc) (key_index : Nat) (bytes : List Nat) : Int :=
  getFieldInt ((td.deserialize bytes).getD key_index (.fInt 0))

/-- Key of a tuple value itself: std::get applied to field key_index. -/
def tupleKey (key_index : Nat) (t : Tuple) : Int :=
  getFieldInt (t.getD key_index (.fInt 0))

/-- A leaf page, modelled by its valid slots: tuples holds the serialized
bytes of slots 0 to size-1 (size = header->size), so size is the list
length.  Bytes past the valid prefix are never read by the code. -/
structure LeafPage where
  capacity : Nat
  next_leaf : Nat
  tuples : List (List Nat)
deriving DecidableEq

/-- Key stored in slot i. -/
def LeafPage.slotKey (td : TupleDesc) (key_index : Nat) (lp : LeafPage) (i : Nat) : Int :=
  key_at td key_index (lp.tuples.getD i [])

/-- The binary search of LeafPage::insertTuple: first position in [lo, hi)
whose key is not below k.  The uint16 midpoint (lo + hi) >> 1 cannot
overflow because capacities fit a page. -/
def lowerBound (key : Nat → Int) (k : Int) (lo hi : Nat) : Nat :=
  if _h : lo < hi then
    if key ((lo + hi) / 2) < k then lowerBound key k ((lo + hi) / 2 + 1) hi
    else lowerBound key k lo ((lo + hi) / 2)
  else lo
termination_by hi - lo
decreasing_by
  all_goals omega

/-- The insertion position computed by the binary search of
LeafPage::insertTuple. -/
def LeafPage.insertPos (td : TupleDesc) (key_index : Nat) (lp : LeafPage) (t : Tuple) : Nat :=
  lowerBound (lp.slotKey td key_index) (tupleKey key_index t) 0 lp.tuples.length

/-- LeafPage::insertTuple.  Upsert in place when the key at the insertion
position matches; refuse when full; otherwise shift and insert.  The
serialization is guarded by schema compatibility at the call sites. -/
def LeafPage.insertTuple (td : TupleDesc) (key_index : Nat) (lp : LeafPage) (t : Tuple) :
    LeafPage × Bool :=
  let n := lp.tuples.length
  let k := tupleKey key_index t
  let pos := lp.insertPos td key_index t
  if pos < n ∧ lp.slotKey td key_index pos = k then
    ({ lp with tuples := lp.tuples.set pos (serializeBody td.types t) },
      decide (n = lp.capacity))
  else if lp.capacity ≤ n then
    (lp, true)
  else
    ({ lp with tuples := lp.tuples.take pos ++ serializeBody td.types t :: lp.tuples.drop pos },
      decide (n + 1 = lp.capacity))

/-- LeafPage::split: throws on an empty page (modelled as none); otherwise
moves slots [mid, size) to the new page, copies the next-leaf link, and
returns the key of the original slot mid. -/
def LeafPage.split (td : TupleDesc) (key_index : Nat) (lp new_page : LeafPage) :
    Option (LeafPage × LeafPage × Int) :=
  let n := lp.tuples.length
  if n = 0 then none
  else
    let mid := n / 2
    some ({ lp with tuples := lp.tuples.take mid },
          { new_page with tuples := lp.tuples.drop mid, next_leaf := lp.next_leaf },
          lp.slotKey td key_index mid)

/-- Sortedness of the stored keys, the invariant the page maintains. -/
def LeafPage.sortedKeys (td : TupleDesc) (key_index : Nat) (lp : LeafPage) : Prop :=
  (lp.tuples.map (key_at td key_index)).Sorted (· ≤ ·)

instance (td : TupleDesc) (key_index : Nat) (lp : LeafPage) :
    Decidable (lp.sortedKeys td key_index) := by
  unfold LeafPage.sortedKeys
  infer_instance

theorem sortedKeys_mono (td : TupleDesc) (key_index : Nat) (lp : LeafPage)
    (h : lp.sortedKeys td key_index) :
    ∀ i j, i ≤ j → j < lp.tuples.length →
      lp.slotKey td key_index i ≤ lp.slotKey td key_index j := by
  intro i j hij hj
  rcases Nat.eq_or_lt_of_le hij with rfl | hlt
  · exact le_refl _
  · have hi : i < lp.tuples.length := lt_trans hlt hj
    unfold LeafPage.sortedKeys at h
    have := h.rel_get_of_lt (a := ⟨i, by simpa using hi⟩) (b := ⟨j, by simpa using hj⟩)
      (by simpa using hlt)
    simp only [List.get_eq_getElem, List.getElem_map] at this
    unfold LeafPage.slotKey
    rwa [List.getD_eq_getElem _ _ hi, List.getD_eq_getElem _ _ hj]

theorem lowerBound_spec_aux (key : Nat → Int) (k : Int) (n : Nat)
    (hmono : ∀ i j, i ≤ j → j < n → key i ≤ key j) :
    ∀ d lo hi, hi - lo = d → lo ≤ hi → hi ≤ n →
      (∀ i, i < lo → key i < k) → (∀ i, hi ≤ i → i < n → k ≤ key i) →
      lo ≤ lowerBound key k lo hi ∧ lowerBound key k lo hi ≤ hi ∧
      (∀ i, i < lowerBound key k lo hi → key i < k) ∧
      (lowerBound key k lo hi < n → k ≤ key (lowerBound key k lo hi)) := by
  intro d
  induction d using Nat.strong_induction_on with
  | _ d ih =>
    intro lo hi hd hle hhi hbelow habove
    rw [lowerBound]
    by_cases h : lo < hi
    · rw [dif_pos h]
      set mid := (lo + hi) / 2 with hmid
      have hmid_lo : lo ≤ mid := by omega
      have hmid_hi : mid < hi := by omega
      by_cases hk : key mid < k
      · rw [if_pos hk]
        have hrec := ih (hi - (mid + 1)) (by omega) (mid + 1) hi rfl (by omega) hhi
          (fun i hi2 => by
            rcases Nat.lt_or_ge i (mid + 1) with _ | _
            · exact lt_of_le_of_lt (hmono i mid (by omega) (by omega)) hk
            · omega)
          habove
        -- the recursive call covers [mid+1, hi); keys below mid+1 are < k
        have hall : ∀ i, i < mid + 1 → key i < k := fun i hi2 =>
          lt_of_le_of_lt (hmono i mid (by omega) (by omega)) hk
        exact ⟨by omega, hrec.2.1, hrec.2.2.1, hrec.2.2.2⟩
      · rw [if_neg hk]
        push_neg at hk
        have hrec := ih (mid - lo) (by omega) lo mid rfl (by omega) (by omega)
          hbelow
          (fun i hge hn => le_trans hk (hmono mid i hge hn))
        exact ⟨hrec.1, by omega, hrec.2.2.1, hrec.2.2.2⟩
    · rw [dif_neg h]
      have : lo = hi := by omega
      subst this
      exact ⟨le_refl _, le_refl _, hbelow, fun hlt => habove lo (le_refl _) hlt⟩

theorem lowerBound_spec (key : Nat → Int) (k : Int) (n : Nat)
    (hmono : ∀ i j, i ≤ j → j < n → key i ≤ key j) :
    lowerBound key k 0 n ≤ n ∧
    (∀ i, i < lowerBound key k 0 n → key i < k) ∧
    (lowerBound key k 0 n < n → k ≤ key (lowerBound key k 0 n)) := by
  have h := lowerBound_spec_aux key k n hmono (n - 0) 0 n rfl (Nat.zero_le n) (le_refl n)
    (fun i hi => absurd hi (Nat.not_lt_zero i))
    (fun i hge hlt => absurd hlt (Nat.not_lt.mpr hge))
  exact ⟨h.2.1, h.2.2.1, h.2.2.2⟩

/-- C1: LeafPage::insertTuple on a sorted leaf.  The binary search yields
the first position whose key is at least k; a matching key at that position
is overwritten in place with size unchanged and size == capacity returned;
a new key on a full page leaves the page unchanged and returns true; and a
new key with room shifts slots [pos, size) right by one, serializes into
pos, increments size, and returns size == capacity. -/
theorem leafPage_insertTuple_spec (td : TupleDesc) (key_index : Nat) (lp : LeafPage) (t : Tuple)
    (hcompat : td.compatible t = true)
    (hcap : lp.tuples.length ≤ lp.capacity)
    (hsorted : lp.sortedKeys td key_index) :
    (lp.insertPos td key_index t ≤ lp.tuples.length ∧
      (∀ i, i < lp.insertPos td key_index t →
        lp.slotKey td key_index i < tupleKey key_index t) ∧
      (lp.insertPos td key_index t < lp.tuples.length →
        tupleKey key_index t ≤ lp.slotKey td key_index (lp.insertPos td key_index t))) ∧
    ((lp.insertPos td key_index t < lp.tuples.length ∧
        lp.slotKey td key_index (lp.insertPos td key_index t) = tupleKey key_index t) →
      lp.insertTuple td key_index t =
        ({ lp with
            tuples := lp.tuples.set (lp.insertPos td key_index t) (serializeBody td.types t) },
          decide (lp.tuples.length = lp.capacity))) ∧
    (¬(lp.insertPos td key_index t < lp.tuples.length ∧
        lp.slotKey td key_index (lp.insertPos td key_index t) = tupleKey key_index t) →
      lp.tuples.length = lp.capacity →
      lp.insertTuple td key_index t = (lp, true)) ∧
    (¬(lp.insertPos td key_index t < lp.tuples.length ∧
        lp.slotKey td key_index (lp.insertPos td key_index t) = tupleKey key_index t) →
      lp.tuples.length < lp.capacity →
      lp.insertTuple td key_index t =
        ({ lp with
            tuples := lp.tuples.take (lp.insertPos td key_index t) ++
              serializeBody td.types t :: lp.tuples.drop (lp.insertPos td key_index t) },
          decide (lp.tuples.length + 1 = lp.capacity)) ∧
      (lp.insertTuple td key_index t).1.tuples.length = lp.tuples.length + 1) := by
  have hmono := sortedKeys_mono td key_index lp hsorted
  have hlb := lowerBound_spec (lp.slotKey td key_index) (tupleKey key_index t)
    lp.tuples.length hmono
  have hpos : lp.insertPos td key_index t =
      lowerBound (lp.slotKey td key_index) (tupleKey key_index t) 0 lp.tuples.length := rfl
  refine ⟨⟨by rw [hpos]; exact hlb.1, by rw [hpos]; exact hlb.2.1, by rw [hpos]; exact hlb.2.2⟩,
    ?_, ?_, ?_⟩
  · intro h
    simp only [LeafPage.insertTuple]
    rw [if_pos h]
  · intro hne heq
    simp only [LeafPage.insertTuple]
    rw [if_neg hne, if_pos (le_of_eq heq.symm)]
  · intro hne hlt
    simp only [LeafPage.insertTuple]
    rw [if_neg hne, if_neg (by omega)]
    refine ⟨rfl, ?_⟩
    have hposle : lp.insertPos td key_index t ≤ lp.tuples.length := by
      rw [hpos]; exact hlb.1
    simp [List.length_take, List.length_drop]
    omega

/-- C1 witness: one-slot leaf with key 1, inserting key 5 appends it. -/
theorem leafPage_insertTuple_witness :
    let td : TupleDesc := ⟨[type_t.INT], ["id"]⟩
    let lp : LeafPage := ⟨2, 0, [[1, 0, 0, 0]]⟩
    let t : Tuple := [field_t.fInt 5]
    (lp.insertPos td 0 t ≤ lp.tuples.length ∧
      (∀ i, i < lp.insertPos td 0 t → lp.slotKey td 0 i < tupleKey 0 t) ∧
      (lp.insertPos td 0 t < lp.tuples.length →
        tupleKey 0 t ≤ lp.slotKey td 0 (lp.insertPos td 0 t))) ∧
    ((lp.insertPos td 0 t < lp.tuples.length ∧
        lp.slotKey td 0 (lp.insertPos td 0 t) = tupleKey 0 t) →
      lp.insertTuple td 0 t =
        ({ lp with tuples := lp.tuples.set (lp.insertPos td 0 t) (serializeBody td.types t) },
          decide (lp.tuples.length = lp.capacity))) ∧
    (¬(lp.insertPos td 0 t < lp.tuples.length ∧
        lp.slotKey td 0 (lp.insertPos td 0 t) = tupleKey 0 t) →
      lp.tuples.length = lp.capacity →
      lp.insertTuple td 0 t = (lp, true)) ∧
    (¬(lp.insertPos td 0 t < lp.tuples.length ∧
        lp.slotKey td 0 (lp.insertPos td 0 t) = tupleKey 0 t) →
      lp.tuples.length < lp.capacity →
      lp.insertTuple td 0 t =
        ({ lp with
            tuples := lp.tuples.take (lp.insertPos td 0 t) ++
              serializeBody td.types t :: lp.tuples.drop (lp.insertPos td 0 t) },
          decide (lp.tuples.length + 1 = lp.capacity)) ∧
      (lp.insertTuple td 0 t).1.tuples.length = lp.tuples.length + 1) := by
  exact leafPage_insertTuple_spec _ 0 _ _ (by decide) (by decide) (by decide)

/-- C3: LeafPage::split fails on an empty leaf, and otherwise moves slots
[mid, size) to the new page, gives the new page size size - mid and the old
next-leaf link, truncates the original to mid slots, and returns the key of
original slot mid, which is the first key of the new page. -/
theorem leafPage_split_spec (td : TupleDesc) (key_index : Nat) (lp new_page : LeafPage) :
    (lp.tuples.length = 0 → lp.split td key_index new_page = none) ∧
    (0 < lp.tuples.length →
      lp.split td key_index new_page =
        some ({ lp with tuples := lp.tuples.take (lp.tuples.length / 2) },
              { new_page with
                  tuples := lp.tuples.drop (lp.tuples.length / 2),
                  next_leaf := lp.next_leaf },
              lp.slotKey td key_index (lp.tuples.length / 2)) ∧
      (lp.tuples.drop (lp.tuples.length / 2)).length
        = lp.tuples.length - lp.tuples.length / 2 ∧
      (lp.tuples.take (lp.tuples.length / 2)).length = lp.tuples.length / 2 ∧
      key_at td key_index ((lp.tuples.drop (lp.tuples.length / 2)).getD 0 [])
        = lp.slotKey td key_index (lp.tuples.length / 2)) := by
  constructor
  · intro h0
    simp only [LeafPage.split]
    rw [if_pos h0]
  · intro hpos
    have hne : lp.tuples.length ≠ 0 := Nat.pos_iff_ne_zero.mp hpos
    have hmid : lp.tuples.length / 2 < lp.tuples.length := Nat.div_lt_self hpos (by omega)
    refine ⟨?_, ?_, ?_, ?_⟩
    · simp only [LeafPage.split]
      rw [if_neg hne]
    · simp [List.length_drop]
    · simp [List.length_take]
      omega
    · unfold LeafPage.slotKey
      congr 1
      have h1 : (lp.tuples.drop (lp.tuples.length / 2)).getD 0 [] =
          ((lp.tuples.drop (lp.tuples.length / 2)).get? 0).getD [] := by
        simp [List.getD]
      have h2 : (lp.tuples.drop (lp.tuples.length / 2)).get? 0 =
          lp.tuples.get? (lp.tuples.length / 2) := by
        rw [List.get?_drop, Nat.add_zero]
      rw [h1, h2]
      simp [List.getD]

/-- C3 witness: splitting a one-slot leaf empties it into the new page, and
splitting an empty leaf fails. -/
theorem leafPage_split_witness :
    let td : TupleDesc := ⟨[type_t.INT], ["id"]⟩
    let lp : LeafPage := ⟨2, 7, [[1, 0, 0, 0]]⟩
    let emptyLp : LeafPage := ⟨2, 7, []⟩
    let np : LeafPage := ⟨2, 11, []⟩
    emptyLp.split td 0 np = none ∧
    (lp.split td 0 np =
        some ({ lp with tuples := lp.tuples.take (lp.tuples.length / 2) },
              { np with
                  tuples := lp.tuples.drop (lp.tuples.length / 2),
                  next_leaf := lp.next_leaf },
              lp.slotKey td 0 (lp.tuples.length / 2)) ∧
      (lp.tuples.drop (lp.tuples.length / 2)).length
        = lp.tuples.length - lp.tuples.length / 2 ∧
      (lp.tuples.take (lp.tuples.length / 2)).length = lp.tuples.length / 2 ∧
      key_at td 0 ((lp.tuples.drop (lp.tuples.length / 2)).getD 0 [])
        = lp.slotKey td 0 (lp.tuples.length / 2)) := by
  refine ⟨?_, ?_⟩
  · exact (leafPage_split_spec _ 0 _ _).1 (by decide)
  · exact (leafPage_split_spec _ 0 _ _).2 (by decide)

/-! ## Index pages (IndexPage.hpp) -/

/-- An index page, modelled by its valid prefix: keys holds the size valid
keys and children the size + 1 valid child page numbers.  index_children is
the header byte (1 when the children are index pages). -/
structure IndexPage where
  capacity : Nat
  index_children : Nat
  keys : List Int
  children : List Nat
deriving DecidableEq

/-- The linear scan of IndexPage::insert: first position whose key is not
below the new key. -/
def IndexPage.findPos (ip : IndexPage) (key : Int) : Nat :=
  (ip.keys.takeWhile fun x => decide (x < key)).length

/-- IndexPage::insert.  A full page is returned unchanged with true;
otherwise the key is inserted at the first position with keys[pos] >= key,
the child right of it, and true is returned iff the page became full. -/
def IndexPage.insert (ip : IndexPage) (key : Int) (child : Nat) : IndexPage × Bool :=
  let n := ip.keys.length
  if ip.capacity ≤ n then (ip, true)
  else
    let pos := ip.findPos key
    ({ ip with
        keys := ip.keys.take pos ++ key :: ip.keys.drop pos,
        children := ip.children.take (pos + 1) ++ child :: ip.children.drop (pos + 1) },
      decide (n + 1 = ip.capacity))

/-- IndexPage::split: promote keys[mid]; keys[mid+1..n) and
children[mid+1..n] move to the new page, which inherits the level tag; the
left page keeps keys[0..mid) and children[0..mid]. -/
def IndexPage.split (ip new_page : IndexPage) : IndexPage × IndexPage × Int :=
  let n := ip.keys.length
  let mid := n / 2
  let up_key := ip.keys.getD mid 0
  ({ ip with keys := ip.keys.take mid, children := ip.children.take (mid + 1) },
   { new_page with
      keys := ip.keys.drop (mid + 1),
      children := ip.children.drop (mid + 1),
      index_children := ip.index_children },
   up_key)

theorem takeWhile_length_spec (p : Int → Bool) (l : List Int) :
    (∀ i, i < (l.takeWhile p).length → p (l.getD i 0) = true) ∧
    (l.takeWhile p).length ≤ l.length ∧
    ((l.takeWhile p).length < l.length → p (l.getD (l.takeWhile p).length 0) = false) := by
  induction l with
  | nil => exact ⟨fun i h => absurd h (by simp), by simp, fun h => absurd h (by simp)⟩
  | cons hd tl ih =>
      by_cases hp : p hd
      · have hTW : (hd :: tl).takeWhile p = hd :: tl.takeWhile p := by
          simp [List.takeWhile, hp]
        rw [hTW]
        refine ⟨?_, by simpa using ih.2.1, ?_⟩
        · intro i hi
          cases i with
          | zero => simpa [List.getD] using hp
          | succ i =>
              simp only [List.length_cons, Nat.succ_lt_succ_iff] at hi
              simpa [List.getD] using ih.1 i hi
        · intro hlt
          simp only [List.length_cons, Nat.succ_lt_succ_iff] at hlt
          simpa [List.getD] using ih.2.2 hlt
      · have hTW : (hd :: tl).takeWhile p = [] := by
          simp [List.takeWhile]
          cases hpv : p hd
          · rfl
          · exact absurd hpv hp
        rw [hTW]
        refine ⟨fun i h => absurd h (by simp), by simp, ?_⟩
        intro _
        simpa [List.getD] using Bool.of_not_eq_true hp

/-- C2: IndexPage::insert on a page with room.  pos is the first index with
keys[pos] >= key; the key goes to position pos and the child to position
pos + 1, both arrays shifting right by one; size increments; true is
returned iff the page is now full. -/
theorem indexPage_insert_spec (ip : IndexPage) (key : Int) (child : Nat)
    (hroom : ip.keys.length < ip.capacity)
    (hlen : ip.children.length = ip.keys.length + 1) :
    (ip.findPos key ≤ ip.keys.length ∧
      (∀ i, i < ip.findPos key → ip.keys.getD i 0 < key) ∧
      (ip.findPos key < ip.keys.length → key ≤ ip.keys.getD (ip.findPos key) 0)) ∧
    ip.insert key child =
      ({ ip with
          keys := ip.keys.take (ip.findPos key) ++ key :: ip.keys.drop (ip.findPos key),
          children := ip.children.take (ip.findPos key + 1) ++
            child :: ip.children.drop (ip.findPos key + 1) },
        decide (ip.keys.length + 1 = ip.capacity)) ∧
    (ip.insert key child).1.keys.length = ip.keys.length + 1 ∧
    (ip.insert key child).1.children.length = ip.keys.length + 2 ∧
    (ip.insert key child).1.keys.getD (ip.findPos key) 0 = key ∧
    (ip.insert key child).1.children.getD (ip.findPos key + 1) 0 = child := by
  have htw := takeWhile_length_spec (fun x => decide (x < key)) ip.keys
  have hple : ip.findPos key ≤ ip.keys.length := htw.2.1
  have heq : ip.insert key child =
      ({ ip with
          keys := ip.keys.take (ip.findPos key) ++ key :: ip.keys.drop (ip.findPos key),
          children := ip.children.take (ip.findPos key + 1) ++
            child :: ip.children.drop (ip.findPos key + 1) },
        decide (ip.keys.length + 1 = ip.capacity)) := by
    simp only [IndexPage.insert]
    rw [if_neg (by omega)]
  have hkeylen : (ip.keys.take (ip.findPos key) ++
      key :: ip.keys.drop (ip.findPos key)).length = ip.keys.length + 1 := by
    simp [List.length_take, List.length_drop]
    omega
  have htakelen : (ip.keys.take (ip.findPos key)).length = ip.findPos key := by
    simp [List.length_take]
    omega
  have htakelen2 : (ip.children.take (ip.findPos key + 1)).length = ip.findPos key + 1 := by
    simp [List.length_take]
    omega
  refine ⟨⟨hple, ?_, ?_⟩, heq, ?_, ?_, ?_, ?_⟩
  · intro i hi
    have := htw.1 i hi
    simpa using this
  · intro hp
    have := htw.2.2 hp
    simpa using this
  · rw [heq]
    exact hkeylen
  · rw [heq]
    simp [List.length_take, List.length_drop]
    omega
  · rw [heq]
    simp only
    rw [List.getD_append_right _ _ _ _ htakelen.le, htakelen, Nat.sub_self]
    simp [List.getD]
  · rw [heq]
    simp only
    rw [List.getD_append_right _ _ _ _ htakelen2.le, htakelen2, Nat.sub_self]
    simp [List.getD]

/-- C2 witness: inserting key 5 with child 9 into a one-key page. -/
theorem indexPage_insert_witness :
    let ip : IndexPage := ⟨4, 1, [2], [10, 11]⟩
    (ip.findPos 5 ≤ ip.keys.length ∧
      (∀ i, i < ip.findPos 5 → ip.keys.getD i 0 < 5) ∧
      (ip.findPos 5 < ip.keys.length → 5 ≤ ip.keys.getD (ip.findPos 5) 0)) ∧
    ip.insert 5 9 =
      ({ ip with
          keys := ip.keys.take (ip.findPos 5) ++ 5 :: ip.keys.drop (ip.findPos 5),
          children := ip.children.take (ip.findPos 5 + 1) ++
            9 :: ip.children.drop (ip.findPos 5 + 1) },
        decide (ip.keys.length + 1 = ip.capacity)) ∧
    (ip.insert 5 9).1.keys.length = ip.keys.length + 1 ∧
    (ip.insert 5 9).1.children.length = ip.keys.length + 2 ∧
    (ip.insert 5 9).1.keys.getD (ip.findPos 5) 0 = 5 ∧
    (ip.insert 5 9).1.children.getD (ip.findPos 5 + 1) 0 = 9 := by
  exact indexPage_insert_spec _ 5 9 (by decide) (by decide)

/-- C4: IndexPage::split with n > 0 keys moves keys[mid+1..n) and
children[mid+1..n] to the new page, which gets n - mid - 1 keys and the
same level tag; the left half keeps mid keys; keys[mid] is promoted and
remains in neither half. -/
theorem indexPage_split_spec (ip new_page : IndexPage)
    (hpos : 0 < ip.keys.length)
    (hlen : ip.children.length = ip.keys.length + 1)
    (hsorted : ip.keys.Pairwise (· < ·)) :
    ip.split new_page =
      ({ ip with
          keys := ip.keys.take (ip.keys.length / 2),
          children := ip.children.take (ip.keys.length / 2 + 1) },
       { new_page with
          keys := ip.keys.drop (ip.keys.length / 2 + 1),
          children := ip.children.drop (ip.keys.length / 2 + 1),
          index_children := ip.index_children },
       ip.keys.getD (ip.keys.length / 2) 0) ∧
    (ip.keys.drop (ip.keys.length / 2 + 1)).length
      = ip.keys.length - ip.keys.length / 2 - 1 ∧
    (ip.children.drop (ip.keys.length / 2 + 1)).length
      = ip.keys.length - ip.keys.length / 2 ∧
    (ip.keys.take (ip.keys.length / 2)).length = ip.keys.length / 2 ∧
    ip.keys.getD (ip.keys.length / 2) 0 ∉ ip.keys.take (ip.keys.length / 2) ∧
    ip.keys.getD (ip.keys.length / 2) 0 ∉ ip.keys.drop (ip.keys.length / 2 + 1) := by
  have hmid : ip.keys.length / 2 < ip.keys.length := Nat.div_lt_self hpos (by omega)
  have hget : ip.keys.getD (ip.keys.length / 2) 0 = ip.keys[ip.keys.length / 2] :=
    List.getD_eq_getElem _ _ hmid
  refine ⟨rfl, by simp [List.length_drop]; omega, by simp [List.length_drop]; omega,
    by simp [List.length_take]; omega, ?_, ?_⟩
  · intro hmem
    rw [List.mem_iff_getElem] at hmem
    obtain ⟨j, hj, hje⟩ := hmem
    have hj2 : j < ip.keys.length / 2 := by
      simp [List.length_take] at hj
      omega
    have hjl : j < ip.keys.length := by omega
    have hjlt : ip.keys[j] < ip.keys[ip.keys.length / 2] := by
      rw [List.pairwise_iff_get] at hsorted
      exact hsorted ⟨j, by omega⟩ ⟨ip.keys.length / 2, hmid⟩ (by simpa using hj2)
    rw [List.getElem_take] at hje
    rw [hget] at hje
    omega
  · intro hmem
    rw [List.mem_iff_getElem] at hmem
    obtain ⟨j, hj, hje⟩ := hmem
    have hj2 : ip.keys.length / 2 + 1 + j < ip.keys.length := by
      simp [List.length_drop] at hj
      omega
    have hjgt : ip.keys[ip.keys.length / 2] < ip.keys[ip.keys.length / 2 + 1 + j] := by
      rw [List.pairwise_iff_get] at hsorted
      exact hsorted ⟨ip.keys.length / 2, hmid⟩ ⟨ip.keys.length / 2 + 1 + j, hj2⟩
        (by simp; omega)
    rw [List.getElem_drop] at hje
    rw [hget] at hje
    omega

/-- C4 witness: splitting a three-key page promotes the middle key. -/
theorem indexPage_split_witness :
    let ip : IndexPage := ⟨4, 1, [2, 5, 9], [10, 11, 12, 13]⟩
    let np : IndexPage := ⟨4, 0, [], []⟩
    ip.split np =
      ({ ip with
          keys := ip.keys.take (ip.keys.length / 2),
          children := ip.children.take (ip.keys.length / 2 + 1) },
       { np with
          keys := ip.keys.drop (ip.keys.length / 2 + 1),
          children := ip.children.drop (ip.keys.length / 2 + 1),
          index_children := ip.index_children },
       ip.keys.getD (ip.keys.length / 2) 0) ∧
    (ip.keys.drop (ip.keys.length / 2 + 1)).length
      = ip.keys.length - ip.keys.length / 2 - 1 ∧
    (ip.children.drop (ip.keys.length / 2 + 1)).length
      = ip.keys.length - ip.keys.length / 2 ∧
    (ip.keys.take (ip.keys.length / 2)).length = ip.keys.length / 2 ∧
    ip.keys.getD (ip.keys.length / 2) 0 ∉ ip.keys.take (ip.keys.length / 2) ∧
    ip.keys.getD (ip.keys.length / 2) 0 ∉ ip.keys.drop (ip.keys.length / 2 + 1) := by
  exact indexPage_split_spec _ _ (by decide) (by decide) (by decide)

/-! ## Heap pages (HeapPage.cpp) -/

/-- Header byte index of slot i, as written in the code (i >> 3). -/
def slotByteIdx (i : Nat) : Nat := i >>> 3

/-- Occupancy mask of slot i, as written in the code (0x80 >> (i & 7)). -/
def slotMask (i : Nat) : Nat := 0x80 >>> (i &&& 7)

/-- Occupancy test used by every heap-page operation:
header[i >> 3] & (0x80 >> (i & 7)) != 0. -/
def slotOccupied (header : List Nat) (i : Nat) : Bool :=
  (header.getD (slotByteIdx i) 0) &&& slotMask i != 0

/-- Bit set used by HeapPage::insertTuple: header[byte] |= mask. -/
def setSlotBit (header : List Nat) (i : Nat) : List Nat :=
  header.set (slotByteIdx i) ((header.getD (slotByteIdx i) 0) ||| slotMask i)

/-- Bit clear used by HeapPage::deleteTuple: header[byte] &= ~mask, on a
byte-sized cell. -/
def clearSlotBit (header : List Nat) (i : Nat) : List Nat :=
  header.set (slotByteIdx i) ((header.getD (slotByteIdx i) 0) &&& (0xFF ^^^ slotMask i))

/-- A heap page view: capacity, the bitmap header bytes and the slot data
bytes, as laid out by the HeapPage constructor. -/
structure HeapPage where
  capacity : Nat
  header : List Nat
  data : List Nat
deriving DecidableEq

/-- The HeapPage constructor over a page buffer: capacity is
8 * PAGE_SIZE / (8 * T + 1), the first (capacity + 7) / 8 bytes are the
bitmap and the rest the slots. -/
def HeapPage.ofPage (td : TupleDesc) (page : List Nat) : HeapPage :=
  let capacity := 8 * DEFAULT_PAGE_SIZE / (8 * td.length + 1)
  let headerBytes := (capacity + 7) / 8
  { capacity := capacity, header := page.take headerBytes, data := page.drop headerBytes }

/-- Reassemble the page bytes from the view. -/
def HeapPage.toBytes (hp : HeapPage) : List Nat :=
  hp.header ++ hp.data

/-- Overwrite bytes of a buffer at an offset (memcpy into the slot). -/
def writeAt (buf : List Nat) (off : Nat) (bytes : List Nat) : List Nat :=
  buf.take off ++ bytes ++ buf.drop (off + bytes.length)

/-- HeapPage::insertTuple: scan for the first slot with a clear bit,
serialize the tuple into its slot bytes and set the bit; false when no
free slot exists. -/
def HeapPage.insertTuple (td : TupleDesc) (hp : HeapPage) (t : Tuple) : HeapPage × Bool :=
  match (List.range hp.capacity).find? (fun i => ! slotOccupied hp.header i) with
  | some i =>
      ({ hp with
          header := setSlotBit hp.header i,
          data := writeAt hp.data (i * td.length) (serializeBody td.types t) }, true)
  | none => (hp, false)

/-- HeapPage::begin: first occupied slot, or capacity. -/
def HeapPage.begin (hp : HeapPage) : Nat :=
  match (List.range hp.capacity).find? (fun i => slotOccupied hp.header i) with
  | some i => i
  | none => hp.capacity

/-- HeapPage::next: next occupied slot strictly after the given one, or
capacity. -/
def HeapPage.nextSlot (hp : HeapPage) (slot : Nat) : Nat :=
  if hp.capacity ≤ slot then hp.capacity
  else
    match (List.range' (slot + 1) (hp.capacity - (slot + 1))).find?
        (fun i => slotOccupied hp.header i) with
    | some i => i
    | none => hp.capacity

/-- HeapPage::empty: clear bit or out of range. -/
def HeapPage.emptySlot (hp : HeapPage) (slot : Nat) : Bool :=
  decide (hp.capacity ≤ slot) || ! slotOccupied hp.header slot

/-- HeapPage::deleteTuple: requires an occupied in-range slot; zeroes the
slot bytes and clears the bit. -/
def HeapPage.deleteTuple (td : TupleDesc) (hp : HeapPage) (slot : Nat) : Option HeapPage :=
  if hp.capacity ≤ slot then none
  else if ! slotOccupied hp.header slot then none
  else some { hp with
      header := clearSlotBit hp.header slot,
      data := writeAt hp.data (slot * td.length) (List.replicate td.length 0) }

theorem slotMask_eq_two_pow (i : Nat) : slotMask i = 2 ^ (7 - i % 8) := by
  unfold slotMask
  have h : i &&& 7 = i % 8 := by
    have := Nat.and_pow_two_sub_one_eq_mod i 3
    norm_num at this
    exact this
  rw [h]
  have h8 : i % 8 < 8 := Nat.mod_lt i (by omega)
  interval_cases h2 : i % 8 <;> rfl

theorem slotByteIdx_eq_div (i : Nat) : slotByteIdx i = i / 8 := by
  unfold slotByteIdx
  rw [Nat.shiftRight_eq_div_pow]

theorem getDSet_self {α : Type} (l : List α) (n : Nat) (a d : α) (h : n < l.length) :
    (l.set n a).getD n d = a := by
  rw [List.getD_eq_getElem _ _ (by simpa using h)]
  simp [List.getElem_set]

theorem getDSet_ne {α : Type} (l : List α) (n m : Nat) (a d : α) (h : m ≠ n) :
    (l.set n a).getD m d = l.getD m d := by
  by_cases hm : m < l.length
  · rw [List.getD_eq_getElem _ _ (by simpa using hm), List.getD_eq_getElem _ _ hm]
    simp only [List.getElem_set]
    rw [if_neg fun h2 => h h2.symm]
  · rw [List.getD_eq_default _ _ (by simpa using Nat.le_of_not_lt hm),
      List.getD_eq_default _ _ (Nat.le_of_not_lt hm)]

theorem slotOccupied_testBit (header : List Nat) (i : Nat) :
    slotOccupied header i = (header.getD (i / 8) 0).testBit (7 - i % 8) := by
  unfold slotOccupied
  rw [slotMask_eq_two_pow, slotByteIdx_eq_div, Nat.and_two_pow]
  cases hb : (header.getD (i / 8) 0).testBit (7 - i % 8)
  · simp
  · simp

theorem heapPage_bits_of_eq_byte (i j : Nat) (hbyte : j / 8 = i / 8) (hne : j ≠ i) :
    7 - j % 8 ≠ 7 - i % 8 := by
  omega

theorem testBit_xFF (s : Nat) (h : s < 8) : Nat.testBit 0xFF s = true := by
  have h255 : (0xFF : Nat) = 2 ^ 8 - 1 := by norm_num
  rw [h255, Nat.testBit_two_pow_sub_one]
  simpa using h

/-- C5: a heap page over a page buffer has capacity
8 * PAGE_SIZE / (8 * T + 1) slots, and the occupancy bit of slot i is bit
0x80 >> (i mod 8) of header byte i / 8, that is, bit 7 - i mod 8 of that
byte in LSB numbering (MSB-first): testing, setting and clearing through
the shared accessors touch exactly that bit. -/
theorem heapPage_capacity_bits_spec (td : TupleDesc) (page : List Nat)
    (header : List Nat) (i j : Nat)
    (hi : i / 8 < header.length) (hne : j ≠ i) :
    (HeapPage.ofPage td page).capacity = 8 * DEFAULT_PAGE_SIZE / (8 * td.length + 1) ∧
    slotByteIdx i = i / 8 ∧
    slotMask i = 2 ^ (7 - i % 8) ∧
    slotOccupied header i = (header.getD (i / 8) 0).testBit (7 - i % 8) ∧
    slotOccupied (setSlotBit header i) i = true ∧
    slotOccupied (clearSlotBit header i) i = false ∧
    slotOccupied (setSlotBit header i) j = slotOccupied header j ∧
    slotOccupied (clearSlotBit header i) j = slotOccupied header j := by
  have hmod : i % 8 < 8 := Nat.mod_lt _ (by omega)
  have hset : setSlotBit header i =
      header.set (i / 8) ((header.getD (i / 8) 0) ||| 2 ^ (7 - i % 8)) := by
    unfold setSlotBit
    rw [slotMask_eq_two_pow, slotByteIdx_eq_div]
  have hclear : clearSlotBit header i =
      header.set (i / 8) ((header.getD (i / 8) 0) &&& (0xFF ^^^ 2 ^ (7 - i % 8))) := by
    unfold clearSlotBit
    rw [slotMask_eq_two_pow, slotByteIdx_eq_div]
  refine ⟨rfl, slotByteIdx_eq_div i, slotMask_eq_two_pow i, slotOccupied_testBit header i,
    ?_, ?_, ?_, ?_⟩
  · rw [slotOccupied_testBit, hset, getDSet_self _ _ _ _ hi, Nat.testBit_or]
    simp [Nat.testBit_two_pow_self]
  · rw [slotOccupied_testBit, hclear, getDSet_self _ _ _ _ hi, Nat.testBit_and,
      Nat.testBit_xor, testBit_xFF _ (by omega), Nat.testBit_two_pow_self]
    simp
  · by_cases hbyte : j / 8 = i / 8
    · have hbit : 7 - j % 8 ≠ 7 - i % 8 := heapPage_bits_of_eq_byte i j hbyte hne
      rw [slotOccupied_testBit, slotOccupied_testBit, hset, hbyte,
        getDSet_self _ _ _ _ hi, Nat.testBit_or,
        Nat.testBit_two_pow_of_ne (fun h2 => hbit h2.symm)]
      simp
    · rw [slotOccupied_testBit, slotOccupied_testBit, hset, getDSet_ne _ _ _ _ _ hbyte]
  · by_cases hbyte : j / 8 = i / 8
    · have hbit : 7 - j % 8 ≠ 7 - i % 8 := heapPage_bits_of_eq_byte i j hbyte hne
      have hjmod : j % 8 < 8 := Nat.mod_lt _ (by omega)
      rw [slotOccupied_testBit, slotOccupied_testBit, hclear, hbyte,
        getDSet_self _ _ _ _ hi, Nat.testBit_and, Nat.testBit_xor,
        testBit_xFF _ (by omega), Nat.testBit_two_pow_of_ne (fun h2 => hbit h2.symm)]
      simp
    · rw [slotOccupied_testBit, slotOccupied_testBit, hclear, getDSet_ne _ _ _ _ _ hbyte]

/-- C5 witness: a two-byte header, slots 3 and 9. -/
theorem heapPage_capacity_bits_witness :
    let td : TupleDesc := ⟨[type_t.INT], ["id"]⟩
    let page : List Nat := List.replicate DEFAULT_PAGE_SIZE 0
    let header : List Nat := [0, 0]
    (HeapPage.ofPage td page).capacity = 8 * DEFAULT_PAGE_SIZE / (8 * td.length + 1) ∧
    slotByteIdx 9 = 9 / 8 ∧
    slotMask 9 = 2 ^ (7 - 9 % 8) ∧
    slotOccupied header 9 = (header.getD (9 / 8) 0).testBit (7 - 9 % 8) ∧
    slotOccupied (setSlotBit header 9) 9 = true ∧
    slotOccupied (clearSlotBit header 9) 9 = false ∧
    slotOccupied (setSlotBit header 9) 3 = slotOccupied header 3 ∧
    slotOccupied (clearSlotBit header 9) 3 = slotOccupied header 3 := by
  exact heapPage_capacity_bits_spec _ _ _ 9 3 (by decide) (by decide)

/-! ## Buffer pool (BufferPool.cpp)

The pool state follows the C++ members.  Stacks and the LRU list keep
their C++ access pattern: available has its top (vector back) at the list
head; lru_list has the most recently used frame at the head and the least
recently used at the last position, as in the std::list.  The pos_to_lru
iterator map is represented by list membership: a frame is in the map iff
it occurs in lru_list.  The disk is a total map from page ids to page
bytes; reads of never-written pages yield the zero-extension performed by
DbFile::readPage. -/

/-- A page address: file name and page number.  The default value (empty
file name) marks a dissociated frame, as in the C++ value-initialized
PageId. -/
structure PageId where
  file : String
  page : Nat
deriving DecidableEq

instance : Inhabited PageId := ⟨⟨"", 0⟩⟩

/-- Page bytes. -/
abbrev PageData := List Nat

/-- The backing files, page-granular. -/
abbrev Disk := PageId → PageData

/-- The read and write audit events of DbFile. -/
inductive IOEvent
  | readE (pid : PageId)
  | writeE (pid : PageId)
deriving DecidableEq

/-- BufferPool state. -/
structure BufferPool where
  pid_to_pos : List (PageId × Nat)
  pos_to_pid : List PageId
  dirty : List Nat
  lru_list : List Nat
  available : List Nat
  pages : List PageData
deriving DecidableEq

/-- The initial pool: N frames, all free, allocated in order 0, 1, ...
(the C++ iota over the reversed vector makes frame 0 the first popped). -/
def mkBufferPool (N : Nat) : BufferPool :=
  { pid_to_pos := []
    pos_to_pid := List.replicate N default
    dirty := []
    lru_list := []
    available := List.range N
    pages := List.replicate N [] }

/-- Lookup in pid_to_pos (unordered_map::find). -/
def BufferPool.findFrame (bp : BufferPool) (pid : PageId) : Option Nat :=
  (bp.pid_to_pos.find? fun e => decide (e.1 = pid)).map (·.2)

/-- BufferPool::contains. -/
def BufferPool.containsPid (bp : BufferPool) (pid : PageId) : Bool :=
  (bp.findFrame pid).isSome

/-- BufferPool::isDirty. -/
def BufferPool.isDirtyPid (bp : BufferPool) (pid : PageId) : Bool :=
  match bp.findFrame pid with
  | none => false
  | some pos => decide (pos ∈ bp.dirty)

/-- BufferPool::markDirty: no-op when the page is not cached. -/
def BufferPool.markDirty (bp : BufferPool) (pid : PageId) : BufferPool :=
  match bp.findFrame pid with
  | none => bp
  | some pos => { bp with dirty := bp.dirty.insert pos }

/-- BufferPool::discardPage: dissociate without flushing and return the
frame to the free stack. -/
def BufferPool.discardPage (bp : BufferPool) (pid : PageId) : BufferPool :=
  match bp.findFrame pid with
  | none => bp
  | some pos =>
      { bp with
          pid_to_pos := bp.pid_to_pos.eraseP fun e => decide (e.1 = pid)
          pos_to_pid := bp.pos_to_pid.set pos default
          lru_list := if pos ∈ bp.lru_list then bp.lru_list.erase pos else bp.lru_list
          dirty := bp.dirty.erase pos
          available := pos :: bp.available }

/-- BufferPool::flushPage: write back and clear dirty when cached and
dirty; otherwise a no-op. -/
def BufferPool.flushPage (d : Disk) (bp : BufferPool) (pid : PageId) :
    BufferPool × Disk × List IOEvent :=
  match bp.findFrame pid with
  | none => (bp, d, [])
  | some pos =>
      if pos ∈ bp.dirty then
        ({ bp with dirty := bp.dirty.erase pos },
          fun q => if q = pid then bp.pages.getD pos [] else d q,
          [.writeE pid])
      else (bp, d, [])

/-- BufferPool::flushFile: flush every dirty frame whose page id names the
file. -/
def BufferPool.flushFile (d : Disk) (bp : BufferPool) (name : String) :
    BufferPool × Disk × List IOEvent :=
  let pids := (bp.dirty.filter fun pos =>
    decide ((bp.pos_to_pid.getD pos default).file = name)).map
      fun pos => bp.pos_to_pid.getD pos default
  pids.foldl
    (fun acc pid =>
      let r := BufferPool.flushPage acc.2.1 acc.1 pid
      (r.1, r.2.1, acc.2.2 ++ r.2.2))
    (bp, d, [])

/-- The eviction block of BufferPool::getPage: when no frame is free, the
last frame of the LRU list is written back if dirty and then dissociated. -/
def BufferPool.evictForMiss (d : Disk) (bp : BufferPool) : BufferPool × Disk × List IOEvent :=
  if bp.available.isEmpty then
    let pos := bp.lru_list.getLastD 0
    let old_pid := bp.pos_to_pid.getD pos default
    if old_pid.file ≠ "" then
      let step2 : BufferPool × Disk × List IOEvent :=
        if bp.isDirtyPid old_pid then BufferPool.flushPage d bp old_pid
        else (bp, d, [])
      (step2.1.discardPage old_pid, step2.2.1, step2.2.2)
    else (bp, d, [])
  else (bp, d, [])

/-- The installation block of BufferPool::getPage: pop a free frame, read
the page into it, install both associations and push the frame to the
front of the LRU list. -/
def BufferPool.installFrame (d : Disk) (bp : BufferPool) (pid : PageId) :
    Nat × BufferPool :=
  let pos := bp.available.headD 0
  let page := d pid
  (pos,
    { bp with
        available := bp.available.tail
        pages := bp.pages.set pos page
        pid_to_pos := (pid, pos) :: bp.pid_to_pos
        pos_to_pid := bp.pos_to_pid.set pos pid
        lru_list := pos :: bp.lru_list })

/-- BufferPool::getPage.  On a hit the frame moves to the front of the LRU
list and the cached buffer is returned.  On a miss the eviction block runs
first when no frame is free, then a free frame is taken, the page is read
from its file and the frame becomes most recently used.  Returns the frame
index together with the new state, the disk after any write-back, and the
I/O events in order. -/
def BufferPool.getPage (d : Disk) (bp : BufferPool) (pid : PageId) :
    Nat × BufferPool × Disk × List IOEvent :=
  match bp.findFrame pid with
  | some pos =>
      (pos,
        { bp with
            lru_list := if pos ∈ bp.lru_list then pos :: bp.lru_list.erase pos
              else bp.lru_list },
        d, [])
  | none =>
      let step1 := BufferPool.evictForMiss d bp
      let r := BufferPool.installFrame step1.2.1 step1.1 pid
      (r.1, r.2, step1.2.1, step1.2.2 ++ [.readE pid])

/-- One buffer-pool operation, for sequencing. -/
inductive BPOp
  | getP (pid : PageId)
  | mark (pid : PageId)
  | discard (pid : PageId)
  | flushP (pid : PageId)
  | flushF (name : String)

/-- Apply one operation to pool and disk. -/
def applyOp (s : BufferPool × Disk) : BPOp → BufferPool × Disk
  | .getP pid =>
      let r := BufferPool.getPage s.2 s.1 pid
      (r.2.1, r.2.2.1)
  | .mark pid => (s.1.markDirty pid, s.2)
  | .discard pid => (s.1.discardPage pid, s.2)
  | .flushP pid =>
      let r := BufferPool.flushPage s.2 s.1 pid
      (r.1, r.2.1)
  | .flushF name =>
      let r := BufferPool.flushFile s.2 s.1 name
      (r.1, r.2.1)

/-- Run a sequence of operations from a state. -/
def runOps (s : BufferPool × Disk) (ops : List BPOp) : BufferPool × Disk :=
  ops.foldl applyOp s

/-- Frame indices currently associated to a page id. -/
def BufferPool.residentFrames (bp : BufferPool) : List Nat :=
  bp.pid_to_pos.map (·.2)

/-- The inductive invariant of the buffer pool over N frames: the two maps
are inverse on resident frames, dissociated frames hold the default id,
dirty frames are resident, the LRU list holds exactly the resident frames,
and the free stack holds exactly the non-resident frames. -/
def BufferPool.Inv (N : Nat) (bp : BufferPool) : Prop :=
  bp.pos_to_pid.length = N ∧
  bp.pages.length = N ∧
  (bp.pid_to_pos.map (·.1)).Nodup ∧
  bp.residentFrames.Nodup ∧
  (∀ e ∈ bp.pid_to_pos, e.2 < N ∧ e.1.file ≠ "" ∧ bp.pos_to_pid.getD e.2 default = e.1) ∧
  (∀ pos, pos < N → pos ∉ bp.residentFrames → bp.pos_to_pid.getD pos default = default) ∧
  bp.dirty.Nodup ∧
  (∀ pos ∈ bp.dirty, pos ∈ bp.residentFrames) ∧
  bp.lru_list.Nodup ∧
  (∀ pos, pos ∈ bp.lru_list ↔ pos ∈ bp.residentFrames) ∧
  bp.available.Nodup ∧
  (∀ pos ∈ bp.available, pos < N) ∧
  (∀ pos ∈ bp.available, pos ∉ bp.residentFrames) ∧
  (∀ pos, pos < N → pos ∈ bp.available ∨ pos ∈ bp.residentFrames)

instance (N : Nat) (bp : BufferPool) : Decidable (bp.Inv N) := by
  unfold BufferPool.Inv
  have h1 : Decidable (∀ pos, pos ∈ bp.lru_list ↔ pos ∈ bp.residentFrames) :=
    decidable_of_iff
      ((∀ pos ∈ bp.lru_list, pos ∈ bp.residentFrames) ∧
        ∀ pos ∈ bp.residentFrames, pos ∈ bp.lru_list)
      (by constructor
          · intro h pos
            exact ⟨fun hm => h.1 pos hm, fun hm => h.2 pos hm⟩
          · intro h
            exact ⟨fun pos hm => (h pos).1 hm, fun pos hm => (h pos).2 hm⟩)
  have h2 : Decidable (∀ pos, pos < N → pos ∉ bp.residentFrames →
      bp.pos_to_pid.getD pos default = default) := by
    apply decidable_of_iff (∀ pos ∈ List.range N, pos ∉ bp.residentFrames →
      bp.pos_to_pid.getD pos default = default)
    constructor
    · intro h pos hlt
      exact h pos (List.mem_range.mpr hlt)
    · intro h pos hm
      exact h pos (List.mem_range.mp hm)
  have h3 : Decidable (∀ pos, pos < N → pos ∈ bp.available ∨ pos ∈ bp.residentFrames) := by
    apply decidable_of_iff (∀ pos ∈ List.range N,
      pos ∈ bp.available ∨ pos ∈ bp.residentFrames)
    constructor
    · intro h pos hlt
      exact h pos (List.mem_range.mpr hlt)
    · intro h pos hm
      exact h pos (List.mem_range.mp hm)
  exact inferInstance

theorem mkBufferPool_Inv (N : Nat) : (mkBufferPool N).Inv N := by
  unfold BufferPool.Inv mkBufferPool BufferPool.residentFrames
  refine ⟨by simp, by simp, by simp, by simp, by simp, ?_, by simp, by simp, by simp,
    by simp, by simpa using List.nodup_range N, by simp, by simp, by simp⟩
  intro pos hlt _
  simp only
  rw [List.getD_eq_getElem _ _ (by simpa using hlt)]
  simp

theorem lookup_map_of_mem_nodup (l : List (PageId × Nat)) (pid : PageId) (pos : Nat)
    (hnd : (l.map (·.1)).Nodup) (hmem : (pid, pos) ∈ l) :
    Option.map (·.2) (l.find? fun e => decide (e.1 = pid)) = some pos := by
  induction l with
  | nil => simp at hmem
  | cons e tl ih =>
      simp only [List.map_cons, List.nodup_cons] at hnd
      rcases List.mem_cons.mp hmem with heq | htl
      · rw [← heq]
        simp [List.find?]
      · have hkey : e.1 ≠ pid := by
          intro hk
          exact hnd.1 (hk ▸ (List.mem_map.mpr ⟨(pid, pos), htl, rfl⟩))
        simp only [List.find?]
        rw [show (decide (e.1 = pid)) = false by simpa using hkey]
        exact ih hnd.2 htl

theorem findFrame_some_iff (bp : BufferPool) (pid : PageId) (pos : Nat)
    (hnd : (bp.pid_to_pos.map (·.1)).Nodup) :
    bp.findFrame pid = some pos ↔ (pid, pos) ∈ bp.pid_to_pos := by
  unfold BufferPool.findFrame
  constructor
  · intro h
    rcases hf : bp.pid_to_pos.find? fun e => decide (e.1 = pid) with _ | e
    · rw [hf] at h
      exact absurd h (by simp)
    · rw [hf] at h
      have h2 : e.2 = pos := by
        have := h
        simp only [Option.map] at this
        exact Option.some.inj this
      have hkey : e.1 = pid := by simpa using List.find?_some hf
      have hmem : e ∈ bp.pid_to_pos := List.mem_of_find?_eq_some hf
      have heq : e = (pid, pos) := by
        rcases e with ⟨e1, e2⟩
        simp only at hkey h2
        simp [hkey, h2]
      rwa [heq] at hmem
  · intro hmem
    exact lookup_map_of_mem_nodup bp.pid_to_pos pid pos hnd hmem

theorem findFrame_none_iff (bp : BufferPool) (pid : PageId) :
    bp.findFrame pid = none ↔ ∀ e ∈ bp.pid_to_pos, e.1 ≠ pid := by
  unfold BufferPool.findFrame
  constructor
  · intro h e he hkey
    rcases hf : bp.pid_to_pos.find? fun e => decide (e.1 = pid) with _ | a
    · rw [List.find?_eq_none] at hf
      have := hf e he
      simp at this
      exact this hkey
    · rw [hf] at h
      simp at h
  · intro h
    have : bp.pid_to_pos.find? (fun e => decide (e.1 = pid)) = none := by
      rw [List.find?_eq_none]
      intro e he
      simpa using h e he
    rw [this]
    rfl

theorem eraseP_of_mem_nodup (bp : BufferPool) (pid : PageId) (pos : Nat)
    (hnd : (bp.pid_to_pos.map (·.1)).Nodup)
    (hmem : (pid, pos) ∈ bp.pid_to_pos) :
    ∃ l₁ l₂, bp.pid_to_pos = l₁ ++ (pid, pos) :: l₂ ∧
      (bp.pid_to_pos.eraseP fun e => decide (e.1 = pid)) = l₁ ++ l₂ ∧
      (∀ e ∈ l₁, e.1 ≠ pid) ∧ (∀ e ∈ l₂, e.1 ≠ pid) := by
  obtain ⟨a, l₁, l₂, hl₁, hpa, hsplit, herase⟩ :=
    List.exists_of_eraseP hmem (p := fun e => decide (e.1 = pid)) (by simp)
  have hakey : a.1 = pid := by simpa using hpa
  have hl₁' : ∀ e ∈ l₁, e.1 ≠ pid := fun e he => by simpa using hl₁ e he
  have hnd2 := hsplit ▸ hnd
  rw [List.map_append, List.map_cons] at hnd2
  have hl₂' : ∀ e ∈ l₂, e.1 ≠ pid := by
    intro e he hkey
    have hnodup2 := (List.nodup_append.mp hnd2).2.1
    rw [List.nodup_cons] at hnodup2
    exact hnodup2.1 (hakey ▸ hkey ▸ List.mem_map.mpr ⟨e, he, rfl⟩)
  have haeq : a = (pid, pos) := by
    have hmem2 := hsplit ▸ hmem
    rcases List.mem_append.mp hmem2 with h1 | h2
    · exact absurd rfl (hl₁' _ h1)
    · rcases List.mem_cons.mp h2 with heq | h3
      · rcases a with ⟨a1, a2⟩
        simp only at hakey
        rw [heq]
      · exact absurd rfl (hl₂' _ h3)
  exact ⟨l₁, l₂, haeq ▸ hsplit, herase, hl₁', hl₂'⟩

theorem markDirty_Inv (N : Nat) (bp : BufferPool) (pid : PageId) (hInv : bp.Inv N) :
    (bp.markDirty pid).Inv N := by
  unfold BufferPool.markDirty
  rcases hf : bp.findFrame pid with _ | pos
  · exact hInv
  · obtain ⟨hN, hNp, hkeys, hres, hentry, hdis, hdnd, hdsub, hlnd, hliff, hand, hab,
      hadisj, hcover⟩ := hInv
    have hmem : (pid, pos) ∈ bp.pid_to_pos := (findFrame_some_iff bp pid pos hkeys).mp hf
    have hposres : pos ∈ bp.residentFrames :=
      List.mem_map.mpr ⟨(pid, pos), hmem, rfl⟩
    refine ⟨hN, hNp, hkeys, hres, hentry, hdis, hdnd.insert, ?_, hlnd, hliff, hand, hab,
      hadisj, hcover⟩
    intro q hq
    rcases List.mem_insert_iff.mp hq with rfl | hq2
    · exact hposres
    · exact hdsub q hq2

theorem flushPage_Inv (N : Nat) (d : Disk) (bp : BufferPool) (pid : PageId)
    (hInv : bp.Inv N) : (BufferPool.flushPage d bp pid).1.Inv N := by
  unfold BufferPool.flushPage
  rcases hf : bp.findFrame pid with _ | pos
  · exact hInv
  · dsimp only
    by_cases hd : pos ∈ bp.dirty
    · rw [if_pos hd]
      obtain ⟨hN, hNp, hkeys, hres, hentry, hdis, hdnd, hdsub, hlnd, hliff, hand, hab,
        hadisj, hcover⟩ := hInv
      exact ⟨hN, hNp, hkeys, hres, hentry, hdis, hdnd.erase pos, fun q hq =>
        hdsub q (List.mem_of_mem_erase hq), hlnd, hliff, hand, hab, hadisj, hcover⟩
    · rw [if_neg hd]
      exact hInv

theorem flushFile_Inv (N : Nat) (d : Disk) (bp : BufferPool) (name : String)
    (hInv : bp.Inv N) : (BufferPool.flushFile d bp name).1.Inv N := by
  unfold BufferPool.flushFile
  generalize ((bp.dirty.filter fun pos =>
    decide ((bp.pos_to_pid.getD pos default).file = name)).map
      fun pos => bp.pos_to_pid.getD pos default) = pids
  have hgen : ∀ (ps : List PageId) (acc : BufferPool × Disk × List IOEvent),
      acc.1.Inv N →
      (ps.foldl (fun acc pid =>
        let r := BufferPool.flushPage acc.2.1 acc.1 pid
        (r.1, r.2.1, acc.2.2 ++ r.2.2)) acc).1.Inv N := by
    intro ps
    induction ps with
    | nil => intro acc h; exact h
    | cons p ps ih =>
        intro acc h
        exact ih _ (flushPage_Inv N acc.2.1 acc.1 p h)
  exact hgen pids (bp, d, []) hInv

theorem discardPage_Inv (N : Nat) (bp : BufferPool) (pid : PageId) (hInv : bp.Inv N) :
    (bp.discardPage pid).Inv N := by
  unfold BufferPool.discardPage
  rcases hf : bp.findFrame pid with _ | pos
  · exact hInv
  · dsimp only
    obtain ⟨hN, hNp, hkeys, hres, hentry, hdis, hdnd, hdsub, hlnd, hliff, hand, hab,
      hadisj, hcover⟩ := hInv
    have hmem : (pid, pos) ∈ bp.pid_to_pos := (findFrame_some_iff bp pid pos hkeys).mp hf
    obtain ⟨hposN, hfile, hinv1⟩ := hentry (pid, pos) hmem
    obtain ⟨l₁, l₂, hsplit, herase, hk1, hk2⟩ := eraseP_of_mem_nodup bp pid pos hkeys hmem
    have hsub : (l₁ ++ l₂).Sublist bp.pid_to_pos := by
      rw [hsplit]
      exact List.Sublist.append_left (List.sublist_cons_self _ _) l₁
    have hres_split : bp.residentFrames = l₁.map (·.2) ++ pos :: l₂.map (·.2) := by
      unfold BufferPool.residentFrames
      rw [hsplit]
      simp
    have hpos_not1 : pos ∉ l₁.map (fun e => e.2) := by
      intro hp
      rw [hres_split] at hres
      exact (List.disjoint_of_nodup_append hres) hp (List.mem_cons_self _ _)
    have hpos_not2 : pos ∉ l₂.map (fun e => e.2) := by
      intro hp
      rw [hres_split] at hres
      have := (List.nodup_append.mp hres).2.1
      rw [List.nodup_cons] at this
      exact this.1 hp
    have hres_new : (bp.pid_to_pos.eraseP fun e => decide (e.1 = pid)).map (·.2)
        = l₁.map (·.2) ++ l₂.map (·.2) := by
      rw [herase]
      simp
    have hmemR : ∀ q, q ∈ l₁.map (fun e => e.2) ++ l₂.map (fun e => e.2) →
        q ∈ bp.residentFrames := by
      intro q hq
      rw [hres_split]
      rcases List.mem_append.mp hq with h1 | h2
      · exact List.mem_append.mpr (Or.inl h1)
      · exact List.mem_append.mpr (Or.inr (List.mem_cons_of_mem _ h2))
    have hmemR2 : ∀ q, q ∈ bp.residentFrames → q ≠ pos →
        q ∈ l₁.map (fun e => e.2) ++ l₂.map (fun e => e.2) := by
      intro q hq hne
      rw [hres_split] at hq
      rcases List.mem_append.mp hq with h1 | h2
      · exact List.mem_append.mpr (Or.inl h1)
      · rcases List.mem_cons.mp h2 with h3 | h4
        · exact absurd h3 hne
        · exact List.mem_append.mpr (Or.inr h4)
    have hposR : pos ∈ bp.residentFrames := List.mem_map.mpr ⟨(pid, pos), hmem, rfl⟩
    have hposlru : pos ∈ bp.lru_list := (hliff pos).mpr hposR
    refine ⟨by simpa using hN, hNp, ?_, ?_, ?_, ?_, hdnd.erase pos, ?_, ?_, ?_, ?_, ?_, ?_, ?_⟩
    · dsimp only
      rw [herase]
      exact List.Nodup.sublist (hsub.map (·.1)) hkeys
    · unfold BufferPool.residentFrames
      dsimp only
      rw [herase]
      exact List.Nodup.sublist (hsub.map (·.2)) hres
    · intro e he
      dsimp only at he ⊢
      rw [herase] at he
      have hmem2 : e ∈ bp.pid_to_pos := hsub.mem he
      obtain ⟨h1, h2, h3⟩ := hentry e hmem2
      refine ⟨h1, h2, ?_⟩
      have hne : e.2 ≠ pos := by
        intro heq
        rcases List.mem_append.mp he with ha | hb
        · exact hpos_not1 (heq ▸ List.mem_map.mpr ⟨e, ha, rfl⟩)
        · exact hpos_not2 (heq ▸ List.mem_map.mpr ⟨e, hb, rfl⟩)
      rw [getDSet_ne _ _ _ _ _ hne]
      exact h3
    · intro p hp hnr
      unfold BufferPool.residentFrames at hnr
      by_cases hpe : p = pos
      · subst hpe
        exact getDSet_self _ _ _ _ (hN ▸ hposN)
      · rw [getDSet_ne _ _ _ _ _ hpe]
        apply hdis p hp
        intro hcontra
        exact hnr (by
          unfold BufferPool.residentFrames at hcontra
          rw [hres_new]
          exact hmemR2 p hcontra hpe)
    · intro q hq
      have hq2 := (hdnd.mem_erase_iff).mp hq
      unfold BufferPool.residentFrames
      rw [hres_new]
      exact hmemR2 q (hdsub q hq2.2) hq2.1
    · rw [if_pos hposlru]
      exact hlnd.erase pos
    · intro q
      rw [if_pos hposlru]
      unfold BufferPool.residentFrames
      rw [hres_new]
      constructor
      · intro hq
        have hq2 := (hlnd.mem_erase_iff).mp hq
        exact hmemR2 q ((hliff q).mp hq2.2) hq2.1
      · intro hq
        rw [hlnd.mem_erase_iff]
        have hqne : q ≠ pos := by
          intro heq
          subst heq
          rcases List.mem_append.mp hq with h1 | h2
          · exact hpos_not1 h1
          · exact hpos_not2 h2
        exact ⟨hqne, (hliff q).mpr (hmemR q hq)⟩
    · rw [List.nodup_cons]
      exact ⟨fun hp => hadisj pos hp hposR, hand⟩
    · intro q hq
      rcases List.mem_cons.mp hq with rfl | h2
      · exact hposN
      · exact hab q h2
    · intro q hq
      unfold BufferPool.residentFrames
      rw [hres_new]
      rcases List.mem_cons.mp hq with rfl | h2
      · intro hcontra
        rcases List.mem_append.mp hcontra with h1 | h3
        · exact hpos_not1 h1
        · exact hpos_not2 h3
      · intro hcontra
        exact hadisj q h2 (hmemR q hcontra)
    · intro p hp
      unfold BufferPool.residentFrames
      rw [hres_new]
      rcases hcover p hp with h1 | h2
      · exact Or.inl (List.mem_cons_of_mem _ h1)
      · by_cases hpe : p = pos
        · exact Or.inl (hpe ▸ List.mem_cons_self _ _)
        · exact Or.inr (hmemR2 p h2 hpe)

theorem installFrame_Inv (N : Nat) (d : Disk) (bp : BufferPool) (pid : PageId)
    (pos : Nat) (rest : List Nat) (hInv : bp.Inv N)
    (hav : bp.available = pos :: rest)
    (hf : bp.findFrame pid = none)
    (hfile : pid.file ≠ "") :
    (BufferPool.installFrame d bp pid).1 = pos ∧
    (BufferPool.installFrame d bp pid).2.Inv N := by
  obtain ⟨hN, hNp, hkeys, hres, hentry, hdis, hdnd, hdsub, hlnd, hliff, hand, hab,
    hadisj, hcover⟩ := hInv
  have hnokey : ∀ e ∈ bp.pid_to_pos, e.1 ≠ pid := (findFrame_none_iff bp pid).mp hf
  have hpos_avail : pos ∈ bp.available := hav ▸ List.mem_cons_self _ _
  have hposN : pos < N := hab pos hpos_avail
  have hpos_nres : pos ∉ bp.residentFrames := hadisj pos hpos_avail
  have hpos_nlru : pos ∉ bp.lru_list := fun h => hpos_nres ((hliff pos).mp h)
  have hav_nodup := hav ▸ hand
  rw [List.nodup_cons] at hav_nodup
  unfold BufferPool.installFrame
  rw [hav]
  simp only [List.headD_cons, List.tail_cons]
  refine ⟨trivial, by simpa using hN, by simpa using hNp, ?_, ?_, ?_, ?_, hdnd, ?_, ?_, ?_,
    hav_nodup.2, ?_, ?_, ?_⟩
  · rw [List.map_cons, List.nodup_cons]
    refine ⟨?_, hkeys⟩
    intro hmem
    obtain ⟨e, he, hkey⟩ := List.mem_map.mp hmem
    exact hnokey e he hkey
  · unfold BufferPool.residentFrames
    rw [List.map_cons, List.nodup_cons]
    exact ⟨hpos_nres, hres⟩
  · intro e he
    rcases List.mem_cons.mp he with rfl | htl
    · exact ⟨hposN, hfile, getDSet_self _ _ _ _ (hN ▸ hposN)⟩
    · obtain ⟨h1, h2, h3⟩ := hentry e htl
      refine ⟨h1, h2, ?_⟩
      have hne : e.2 ≠ pos := fun heq =>
        hpos_nres (heq ▸ List.mem_map.mpr ⟨e, htl, rfl⟩)
      rw [getDSet_ne _ _ _ _ _ hne]
      exact h3
  · intro p hp hnr
    unfold BufferPool.residentFrames at hnr
    rw [List.map_cons] at hnr
    have hne : p ≠ pos := fun heq => hnr (heq ▸ List.mem_cons_self _ _)
    rw [getDSet_ne _ _ _ _ _ hne]
    exact hdis p hp fun hc => hnr (List.mem_cons_of_mem _ hc)
  · intro q hq
    unfold BufferPool.residentFrames
    rw [List.map_cons]
    exact List.mem_cons_of_mem _ (hdsub q hq)
  · rw [List.nodup_cons]
    exact ⟨hpos_nlru, hlnd⟩
  · intro q
    unfold BufferPool.residentFrames
    rw [List.map_cons]
    constructor
    · intro hq
      rcases List.mem_cons.mp hq with rfl | h2
      · exact List.mem_cons_self _ _
      · exact List.mem_cons_of_mem _ ((hliff q).mp h2)
    · intro hq
      rcases List.mem_cons.mp hq with rfl | h2
      · exact List.mem_cons_self _ _
      · exact List.mem_cons_of_mem _ ((hliff q).mpr h2)
  · intro q hq
    exact hab q (hav ▸ List.mem_cons_of_mem _ hq)
  · intro q hq
    unfold BufferPool.residentFrames
    rw [List.map_cons]
    intro hc
    rcases List.mem_cons.mp hc with rfl | h2
    · exact hav_nodup.1 hq
    · exact hadisj q (hav ▸ List.mem_cons_of_mem _ hq) h2
  · intro p hp
    unfold BufferPool.residentFrames
    rw [List.map_cons]
    rcases hcover p hp with h1 | h2
    · rw [hav] at h1
      rcases List.mem_cons.mp h1 with rfl | h3
      · exact Or.inr (List.mem_cons_self _ _)
      · exact Or.inl h3
    · exact Or.inr (List.mem_cons_of_mem _ h2)

theorem evictForMiss_of_avail_nonempty (d : Disk) (bp : BufferPool)
    (h : bp.available ≠ []) : bp.evictForMiss d = (bp, d, []) := by
  unfold BufferPool.evictForMiss
  rw [if_neg]
  simp [List.isEmpty_iff, h]

/-- Facts established by the eviction block when the free stack is empty:
the victim is the last LRU frame, its id has a nonempty file name and maps
back to the frame, and after eviction the frame is the only free one while
every missing page id stays missing. -/
theorem evictForMiss_spec (N : Nat) (d : Disk) (bp : BufferPool) (hInv : bp.Inv N)
    (hN : 0 < N) (hav : bp.available = []) :
    (bp.evictForMiss d).1.Inv N ∧
    (bp.evictForMiss d).1.available = [bp.lru_list.getLastD 0] ∧
    (∀ pid, bp.findFrame pid = none → (bp.evictForMiss d).1.findFrame pid = none) := by
  obtain ⟨hN', hNp, hkeys, hres, hentry, hdis, hdnd, hdsub, hlnd, hliff, hand, hab,
    hadisj, hcover⟩ := hInv
  have hInv' : bp.Inv N := ⟨hN', hNp, hkeys, hres, hentry, hdis, hdnd, hdsub, hlnd,
    hliff, hand, hab, hadisj, hcover⟩
  -- the LRU list is nonempty: frame 0 exists and is resident since no frame is free
  have hlru_ne : bp.lru_list ≠ [] := by
    rcases hcover 0 hN with h1 | h2
    · rw [hav] at h1
      simp at h1
    · intro hnil
      have := (hliff 0).mpr h2
      rw [hnil] at this
      simp at this
  set pos := bp.lru_list.getLastD 0 with hposdef
  have hpos_lru : pos ∈ bp.lru_list := by
    rw [hposdef, List.getLastD_eq_getLast?]
    rw [List.getLast?_eq_getLast _ hlru_ne]
    simp only [Option.getD_some]
    exact List.getLast_mem hlru_ne
  have hpos_res : pos ∈ bp.residentFrames := (hliff pos).mp hpos_lru
  obtain ⟨e, hemem, hepos⟩ := List.mem_map.mp hpos_res
  set old_pid := bp.pos_to_pid.getD pos default with holddef
  obtain ⟨heN, hefile, heinv⟩ := hentry e hemem
  have hold_eq : old_pid = e.1 := by
    rw [holddef, ← hepos]
    exact heinv
  have hold_file : old_pid.file ≠ "" := hold_eq ▸ hefile
  have hold_mem : (old_pid, pos) ∈ bp.pid_to_pos := by
    have : e = (old_pid, pos) := by
      rcases e with ⟨e1, e2⟩
      simp only at hepos hold_eq
      rw [hold_eq, hepos]
    rwa [this] at hemem
  have hfind_old : bp.findFrame old_pid = some pos :=
    (findFrame_some_iff bp old_pid pos hkeys).mpr hold_mem
  -- reduce the eviction block
  have hempty : bp.available.isEmpty = true := by
    rw [hav]
    rfl
  unfold BufferPool.evictForMiss
  rw [if_pos hempty]
  dsimp only
  rw [← hposdef, ← holddef, if_pos hold_file]
  by_cases hd : pos ∈ bp.dirty
  · have hdirty : bp.isDirtyPid old_pid = true := by
      unfold BufferPool.isDirtyPid
      rw [hfind_old]
      simpa using hd
    rw [if_pos hdirty]
    unfold BufferPool.flushPage
    rw [hfind_old]
    dsimp only
    rw [if_pos hd]
    set bpf : BufferPool := { bp with dirty := bp.dirty.erase pos } with hbpf
    have hInvf : bpf.Inv N := by
      have := flushPage_Inv N d bp old_pid hInv'
      unfold BufferPool.flushPage at this
      rw [hfind_old] at this
      dsimp only at this
      rw [if_pos hd] at this
      exact this
    have hff : bpf.findFrame old_pid = some pos := hfind_old
    refine ⟨discardPage_Inv N bpf old_pid hInvf, ?_, ?_⟩
    · unfold BufferPool.discardPage
      rw [hff]
      dsimp only
      rw [show bpf.available = [] from hav]
    · intro pid hnone
      unfold BufferPool.discardPage
      rw [hff]
      dsimp only
      rw [findFrame_none_iff]
      intro q hq
      exact (findFrame_none_iff bp pid).mp hnone q ((List.eraseP_sublist _).mem hq)
  · have hdirty : bp.isDirtyPid old_pid = false := by
      unfold BufferPool.isDirtyPid
      rw [hfind_old]
      simpa using hd
    rw [if_neg (by simp [hdirty])]
    dsimp only
    refine ⟨discardPage_Inv N bp old_pid hInv', ?_, ?_⟩
    · unfold BufferPool.discardPage
      rw [hfind_old]
      dsimp only
      rw [hav]
    · intro pid hnone
      unfold BufferPool.discardPage
      rw [hfind_old]
      dsimp only
      rw [findFrame_none_iff]
      intro q hq
      exact (findFrame_none_iff bp pid).mp hnone q ((List.eraseP_sublist _).mem hq)

theorem getPage_Inv (N : Nat) (d : Disk) (bp : BufferPool) (pid : PageId)
    (hInv : bp.Inv N) (hN : 0 < N) (hfile : pid.file ≠ "") :
    (BufferPool.getPage d bp pid).2.1.Inv N := by
  unfold BufferPool.getPage
  rcases hf : bp.findFrame pid with _ | pos
  · dsimp only
    rcases hava : bp.available with _ | ⟨a, rest⟩
    · obtain ⟨hInv1, hav1, hnone1⟩ := evictForMiss_spec N d bp hInv hN hava
      exact (installFrame_Inv N (bp.evictForMiss d).2.1 (bp.evictForMiss d).1 pid
        (bp.lru_list.getLastD 0) [] hInv1 hav1 (hnone1 pid hf) hfile).2
    · have heq := evictForMiss_of_avail_nonempty d bp (by rw [hava]; simp)
      rw [heq]
      exact (installFrame_Inv N d bp pid a rest hInv hava hf hfile).2
  · dsimp only
    obtain ⟨hN', hNp, hkeys, hres, hentry, hdis, hdnd, hdsub, hlnd, hliff, hand, hab,
      hadisj, hcover⟩ := hInv
    have hmem : (pid, pos) ∈ bp.pid_to_pos := (findFrame_some_iff bp pid pos hkeys).mp hf
    have hposres : pos ∈ bp.residentFrames := List.mem_map.mpr ⟨(pid, pos), hmem, rfl⟩
    have hposlru : pos ∈ bp.lru_list := (hliff pos).mpr hposres
    rw [if_pos hposlru]
    refine ⟨hN', hNp, hkeys, hres, hentry, hdis, hdnd, hdsub, ?_, ?_, hand, hab,
      hadisj, hcover⟩
    · rw [List.nodup_cons]
      exact ⟨fun hc => ((hlnd.mem_erase_iff).mp hc).1 rfl, hlnd.erase pos⟩
    · intro q
      constructor
      · intro hq
        rcases List.mem_cons.mp hq with rfl | h2
        · exact hposres
        · exact (hliff q).mp (List.mem_of_mem_erase h2)
      · intro hq
        by_cases hqe : q = pos
        · exact hqe ▸ List.mem_cons_self _ _
        · exact List.mem_cons_of_mem _
            ((hlnd.mem_erase_iff).mpr ⟨hqe, (hliff q).mpr hq⟩)

theorem applyOp_Inv (N : Nat) (s : BufferPool × Disk) (op : BPOp)
    (hInv : s.1.Inv N) (hN : 0 < N)
    (hop : ∀ pid, op = BPOp.getP pid → pid.file ≠ "") :
    (applyOp s op).1.Inv N := by
  rcases op with pid | pid | pid | pid | name
  · exact getPage_Inv N s.2 s.1 pid hInv hN (hop pid rfl)
  · exact markDirty_Inv N s.1 pid hInv
  · exact discardPage_Inv N s.1 pid hInv
  · exact flushPage_Inv N s.2 s.1 pid hInv
  · exact flushFile_Inv N s.2 s.1 name hInv

theorem runOps_Inv (N : Nat) (ops : List BPOp) :
    ∀ s : BufferPool × Disk, s.1.Inv N → 0 < N →
    (∀ pid, BPOp.getP pid ∈ ops → pid.file ≠ "") →
    (runOps s ops).1.Inv N := by
  induction ops with
  | nil => intro s h _ _; exact h
  | cons op ops ih =>
      intro s h hN hop
      unfold runOps
      rw [List.foldl_cons]
      exact ih (applyOp s op)
        (applyOp_Inv N s op h hN fun pid heq => hop pid (heq ▸ List.mem_cons_self _ _))
        hN
        (fun pid hm => hop pid (List.mem_cons_of_mem _ hm))

theorem Inv_count (N : Nat) (bp : BufferPool) (hInv : bp.Inv N) :
    bp.pid_to_pos.length + bp.available.length = N := by
  obtain ⟨hN', hNp, hkeys, hres, hentry, hdis, hdnd, hdsub, hlnd, hliff, hand, hab,
    hadisj, hcover⟩ := hInv
  have hnodup : (bp.residentFrames ++ bp.available).Nodup := by
    rw [List.nodup_append]
    refine ⟨hres, hand, ?_⟩
    intro a ha hb
    exact hadisj a hb ha
  have hperm : (bp.residentFrames ++ bp.available).Perm (List.range N) := by
    rw [List.perm_ext_iff_of_nodup hnodup (List.nodup_range N)]
    intro q
    rw [List.mem_append, List.mem_range]
    constructor
    · intro h
      rcases h with h1 | h2
      · obtain ⟨e, he, hq⟩ := List.mem_map.mp h1
        exact hq ▸ (hentry e he).1
      · exact hab q h2
    · intro h
      rcases hcover q h with h1 | h2
      · exact Or.inr h1
      · exact Or.inl h2
  have hlen := hperm.length_eq
  rw [List.length_append, List.length_range] at hlen
  have : bp.residentFrames.length = bp.pid_to_pos.length := by
    unfold BufferPool.residentFrames
    simp
  omega

/-- C7: after any sequence of buffer-pool operations from the initial pool
(with real file names in every getPage), the two maps are mutual inverses
on resident frames, every dirty frame is resident, and the resident and
free frame counts sum to the pool size N. -/
theorem bufferPool_invariant_spec (N : Nat) (d : Disk) (ops : List BPOp)
    (hN : 0 < N)
    (hops : ∀ pid, BPOp.getP pid ∈ ops → pid.file ≠ "") :
    (∀ e ∈ (runOps (mkBufferPool N, d) ops).1.pid_to_pos,
      (runOps (mkBufferPool N, d) ops).1.pos_to_pid.getD e.2 default = e.1) ∧
    (∀ pos ∈ (runOps (mkBufferPool N, d) ops).1.residentFrames,
      (runOps (mkBufferPool N, d) ops).1.findFrame
        ((runOps (mkBufferPool N, d) ops).1.pos_to_pid.getD pos default) = some pos) ∧
    (∀ pos ∈ (runOps (mkBufferPool N, d) ops).1.dirty,
      pos ∈ (runOps (mkBufferPool N, d) ops).1.residentFrames) ∧
    (runOps (mkBufferPool N, d) ops).1.pid_to_pos.length +
      (runOps (mkBufferPool N, d) ops).1.available.length = N := by
  have hInv : (runOps (mkBufferPool N, d) ops).1.Inv N :=
    runOps_Inv N ops (mkBufferPool N, d) (mkBufferPool_Inv N) hN hops
  obtain ⟨hN', hNp, hkeys, hres, hentry, hdis, hdnd, hdsub, hlnd, hliff, hand, hab,
    hadisj, hcover⟩ := hInv
  refine ⟨fun e he => (hentry e he).2.2, ?_, hdsub,
    Inv_count N _ ⟨hN', hNp, hkeys, hres, hentry, hdis, hdnd, hdsub, hlnd, hliff, hand,
      hab, hadisj, hcover⟩⟩
  intro pos hpos
  obtain ⟨e, he, hq⟩ := List.mem_map.mp hpos
  have hinv1 := (hentry e he).2.2
  rw [← hq, hinv1]
  apply (findFrame_some_iff _ e.1 e.2 hkeys).mpr
  exact he

/-- C7 witness: two frames, a workload with a hit, a dirty mark, an
eviction, a flush and a discard. -/
theorem bufferPool_invariant_witness :
    let A : PageId := ⟨"f", 0⟩
    let B : PageId := ⟨"f", 1⟩
    let C : PageId := ⟨"g", 0⟩
    let d : Disk := fun _ => []
    let ops : List BPOp := [BPOp.getP A, BPOp.mark A, BPOp.getP B, BPOp.getP C,
      BPOp.flushP B, BPOp.discard C, BPOp.flushF "f"]
    (∀ e ∈ (runOps (mkBufferPool 2, d) ops).1.pid_to_pos,
      (runOps (mkBufferPool 2, d) ops).1.pos_to_pid.getD e.2 default = e.1) ∧
    (∀ pos ∈ (runOps (mkBufferPool 2, d) ops).1.residentFrames,
      (runOps (mkBufferPool 2, d) ops).1.findFrame
        ((runOps (mkBufferPool 2, d) ops).1.pos_to_pid.getD pos default) = some pos) ∧
    (∀ pos ∈ (runOps (mkBufferPool 2, d) ops).1.dirty,
      pos ∈ (runOps (mkBufferPool 2, d) ops).1.residentFrames) ∧
    (runOps (mkBufferPool 2, d) ops).1.pid_to_pos.length +
      (runOps (mkBufferPool 2, d) ops).1.available.length = 2 := by
  apply bufferPool_invariant_spec 2 _ _ (by norm_num)
  intro pid hm
  simp only [List.mem_cons] at hm
  rcases hm with h | h | h | h | h | h | h | h
  all_goals first
    | (cases h; decide)
    | (exact absurd h (by simp))

/-- C6: BufferPool::getPage.  A resident page returns its cached frame and
promotes it to most recently used with no I/O.  A miss with a free frame
reads the page into that frame, installs both associations and makes it
most recently used.  A miss with no free frame evicts exactly the last
frame of the LRU order, writing it back first iff it is dirty, dissociates
it, and then reuses that same frame for the requested page. -/
theorem bufferPool_getPage_spec (N : Nat) (d : Disk) (bp : BufferPool) (pid : PageId)
    (hInv : bp.Inv N) (hN : 0 < N) (hfile : pid.file ≠ "") :
    (∀ pos, bp.findFrame pid = some pos →
      BufferPool.getPage d bp pid =
        (pos, { bp with lru_list := pos :: bp.lru_list.erase pos }, d, [])) ∧
    (∀ pos rest, bp.findFrame pid = none → bp.available = pos :: rest →
      BufferPool.getPage d bp pid =
        (pos,
          { bp with
              available := rest
              pages := bp.pages.set pos (d pid)
              pid_to_pos := (pid, pos) :: bp.pid_to_pos
              pos_to_pid := bp.pos_to_pid.set pos pid
              lru_list := pos :: bp.lru_list },
          d, [.readE pid])) ∧
    (∀ pos old_pid, bp.findFrame pid = none → bp.available = [] →
      pos = bp.lru_list.getLastD 0 →
      old_pid = bp.pos_to_pid.getD pos default →
      ((pos ∈ bp.dirty →
        BufferPool.getPage d bp pid =
          (pos,
            { pid_to_pos := (pid, pos) ::
                (bp.pid_to_pos.eraseP fun e => decide (e.1 = old_pid))
              pos_to_pid := (bp.pos_to_pid.set pos default).set pos pid
              dirty := (bp.dirty.erase pos).erase pos
              lru_list := pos :: bp.lru_list.erase pos
              available := []
              pages := bp.pages.set pos (d pid) },
            (fun q => if q = old_pid then bp.pages.getD pos [] else d q),
            [.writeE old_pid, .readE pid])) ∧
      (pos ∉ bp.dirty →
        BufferPool.getPage d bp pid =
          (pos,
            { pid_to_pos := (pid, pos) ::
                (bp.pid_to_pos.eraseP fun e => decide (e.1 = old_pid))
              pos_to_pid := (bp.pos_to_pid.set pos default).set pos pid
              dirty := bp.dirty.erase pos
              lru_list := pos :: bp.lru_list.erase pos
              available := []
              pages := bp.pages.set pos (d pid) },
            d, [.readE pid])))) := by
  obtain ⟨hN', hNp, hkeys, hres, hentry, hdis, hdnd, hdsub, hlnd, hliff, hand, hab,
    hadisj, hcover⟩ := hInv
  refine ⟨?_, ?_, ?_⟩
  · -- hit
    intro pos hf
    have hmem : (pid, pos) ∈ bp.pid_to_pos := (findFrame_some_iff bp pid pos hkeys).mp hf
    have hposlru : pos ∈ bp.lru_list :=
      (hliff pos).mpr (List.mem_map.mpr ⟨(pid, pos), hmem, rfl⟩)
    unfold BufferPool.getPage
    rw [hf]
    dsimp only
    rw [if_pos hposlru]
  · -- miss with a free frame
    intro pos rest hf hav
    unfold BufferPool.getPage
    rw [hf]
    dsimp only
    rw [evictForMiss_of_avail_nonempty d bp (by rw [hav]; simp)]
    unfold BufferPool.installFrame
    dsimp only
    rw [hav]
    simp only [List.headD_cons, List.tail_cons, List.nil_append]
  · -- miss without a free frame
    intro pos old_pid hf hav hposdef holddef
    -- the victim frame is resident
    have hlru_ne : bp.lru_list ≠ [] := by
      rcases hcover 0 hN with h1 | h2
      · rw [hav] at h1
        simp at h1
      · intro hnil
        have := (hliff 0).mpr h2
        rw [hnil] at this
        simp at this
    have hpos_lru : pos ∈ bp.lru_list := by
      rw [hposdef, List.getLastD_eq_getLast?, List.getLast?_eq_getLast _ hlru_ne]
      simp only [Option.getD_some]
      exact List.getLast_mem hlru_ne
    have hpos_res : pos ∈ bp.residentFrames := (hliff pos).mp hpos_lru
    obtain ⟨e, hemem, hepos⟩ := List.mem_map.mp hpos_res
    obtain ⟨heN, hefile, heinv⟩ := hentry e hemem
    have hold_eq : old_pid = e.1 := by
      rw [holddef, ← hepos]
      exact heinv
    have hold_file : old_pid.file ≠ "" := hold_eq ▸ hefile
    have hold_mem : (old_pid, pos) ∈ bp.pid_to_pos := by
      have he2 : e = (old_pid, pos) := by
        rcases e with ⟨e1, e2⟩
        simp only at hepos hold_eq
        rw [hold_eq, hepos]
      rwa [he2] at hemem
    have hfind_old : bp.findFrame old_pid = some pos :=
      (findFrame_some_iff bp old_pid pos hkeys).mpr hold_mem
    have hne_pid : pid ≠ old_pid := by
      intro heq
      rw [← heq] at hfind_old
      rw [hf] at hfind_old
      exact Option.noConfusion hfind_old
    have hempty : bp.available.isEmpty = true := by
      rw [hav]
      rfl
    constructor
    · -- dirty victim: write back, then dissociate and reuse
      intro hd
      have hdirty : bp.isDirtyPid old_pid = true := by
        unfold BufferPool.isDirtyPid
        rw [hfind_old]
        simpa using hd
      unfold BufferPool.getPage
      rw [hf]
      dsimp only
      unfold BufferPool.evictForMiss
      rw [if_pos hempty]
      dsimp only
      rw [← hposdef, ← holddef, if_pos hold_file, if_pos hdirty]
      unfold BufferPool.flushPage
      rw [hfind_old]
      dsimp only
      rw [if_pos hd]
      unfold BufferPool.discardPage
      rw [show ({ bp with dirty := bp.dirty.erase pos } : BufferPool).findFrame old_pid
        = some pos from hfind_old]
      dsimp only
      rw [if_pos hpos_lru]
      unfold BufferPool.installFrame
      dsimp only
      rw [hav]
      simp only [List.headD_cons, List.tail_cons]
      rw [if_neg hne_pid]
      rfl
    · -- clean victim: no write back
      intro hd
      have hdirty : bp.isDirtyPid old_pid = false := by
        unfold BufferPool.isDirtyPid
        rw [hfind_old]
        simpa using hd
      unfold BufferPool.getPage
      rw [hf]
      dsimp only
      unfold BufferPool.evictForMiss
      rw [if_pos hempty]
      dsimp only
      rw [← hposdef, ← holddef, if_pos hold_file, if_neg (by simp [hdirty])]
      dsimp only
      unfold BufferPool.discardPage
      rw [hfind_old]
      dsimp only
      rw [if_pos hpos_lru]
      unfold BufferPool.installFrame
      dsimp only
      rw [hav]
      simp only [List.headD_cons, List.tail_cons, List.nil_append]

/-- Concrete ids and states used by the getPage witness scenario. -/
def pidA : PageId := ⟨"f", 0⟩

def pidB : PageId := ⟨"f", 1⟩

def disk0 : Disk := fun _ => []

/-- One-frame pool after fetching pidA. -/
def bpAfterA : BufferPool := (BufferPool.getPage disk0 (mkBufferPool 1) pidA).2.1

/-- The same pool with the frame of pidA marked dirty. -/
def bpAfterADirty : BufferPool := bpAfterA.markDirty pidA

/-- C6 witness: hit promotion, clean eviction and dirty eviction on a
one-frame pool. -/
theorem bufferPool_getPage_witness :
    (BufferPool.getPage disk0 bpAfterA pidA =
      (0, { bpAfterA with lru_list := 0 :: bpAfterA.lru_list.erase 0 }, disk0, [])) ∧
    (BufferPool.getPage disk0 bpAfterA pidB =
      (0,
        { pid_to_pos := (pidB, 0) ::
            (bpAfterA.pid_to_pos.eraseP fun e => decide (e.1 = pidA))
          pos_to_pid := (bpAfterA.pos_to_pid.set 0 default).set 0 pidB
          dirty := bpAfterA.dirty.erase 0
          lru_list := 0 :: bpAfterA.lru_list.erase 0
          available := []
          pages := bpAfterA.pages.set 0 (disk0 pidB) },
        disk0, [.readE pidB])) ∧
    (BufferPool.getPage disk0 bpAfterADirty pidB =
      (0,
        { pid_to_pos := (pidB, 0) ::
            (bpAfterADirty.pid_to_pos.eraseP fun e => decide (e.1 = pidA))
          pos_to_pid := (bpAfterADirty.pos_to_pid.set 0 default).set 0 pidB
          dirty := (bpAfterADirty.dirty.erase 0).erase 0
          lru_list := 0 :: bpAfterADirty.lru_list.erase 0
          available := []
          pages := bpAfterADirty.pages.set 0 (disk0 pidB) },
        (fun q => if q = pidA then bpAfterADirty.pages.getD 0 [] else disk0 q),
        [.writeE pidA, .readE pidB])) := by
  refine ⟨?_, ?_, ?_⟩
  · exact (bufferPool_getPage_spec 1 disk0 bpAfterA pidA (by decide) (by decide)
      (by decide)).1 0 (by decide)
  · exact ((bufferPool_getPage_spec 1 disk0 bpAfterA pidB (by decide) (by decide)
      (by decide)).2.2 0 pidA (by decide) (by decide) (by decide) (by decide)).2 (by decide)
  · exact ((bufferPool_getPage_spec 1 disk0 bpAfterADirty pidB (by decide) (by decide)
      (by decide)).2.2 0 pidA (by decide) (by decide) (by decide) (by decide)).1 (by decide)

/-! ## Heap files (HeapFile.cpp) -/

/-- HeapPage::end: one past the last slot. -/
def HeapPage.endSlot (hp : HeapPage) : Nat := hp.capacity

/-- Heap file metadata: the file name, its schema and its page count.  The
page contents live in the buffer pool and on disk. -/
structure HeapFile where
  name : String
  td : TupleDesc
  numPages : Nat
deriving DecidableEq

/-- The errors HeapFile::insertTuple can throw. -/
inductive DbError
  | schemaIncompatible
  | emptyPageInsertFailed
deriving DecidableEq

/-- The iterator value of HeapFile::end: page numPages, slot 0. -/
def heapFileEnd (hf : HeapFile) : Nat × Nat := (hf.numPages, 0)

/-- The fresh-page tail of HeapFile::insertTuple: fetch page numPages
(zero-filled for a new page), insert, mark dirty and extend the file;
failure to insert into the fresh page is fatal with the pool already
touched. -/
def heapFileInsertNewPage (d : Disk) (bp : BufferPool) (hf : HeapFile) (t : Tuple) :
    (HeapFile × BufferPool × Disk) × Option DbError :=
  let pid : PageId := ⟨hf.name, hf.numPages⟩
  let r := BufferPool.getPage d bp pid
  let hp := HeapPage.ofPage hf.td (r.2.1.pages.getD r.1 [])
  let ri := HeapPage.insertTuple hf.td hp t
  let bp2 := { r.2.1 with pages := r.2.1.pages.set r.1 ri.1.toBytes }
  if ri.2 then
    (({ hf with numPages := hf.numPages + 1 }, bp2.markDirty pid, r.2.2.1), none)
  else
    ((hf, bp2, r.2.2.1), some .emptyPageInsertFailed)

/-- HeapFile::insertTuple: reject incompatible tuples before any mutation;
then try the last page, and on failure append a fresh page. -/
def heapFileInsertTuple (d : Disk) (bp : BufferPool) (hf : HeapFile) (t : Tuple) :
    (HeapFile × BufferPool × Disk) × Option DbError :=
  if ¬ hf.td.compatible t then ((hf, bp, d), some .schemaIncompatible)
  else if 0 < hf.numPages then
    let pid : PageId := ⟨hf.name, hf.numPages - 1⟩
    let r := BufferPool.getPage d bp pid
    let hp := HeapPage.ofPage hf.td (r.2.1.pages.getD r.1 [])
    let ri := HeapPage.insertTuple hf.td hp t
    let bp2 := { r.2.1 with pages := r.2.1.pages.set r.1 ri.1.toBytes }
    if ri.2 then ((hf, bp2.markDirty pid, r.2.2.1), none)
    else heapFileInsertNewPage r.2.2.1 bp2 hf t
  else heapFileInsertNewPage d bp hf t

/-- The cross-page loop of HeapFile::next: first occupied slot from page p
on, or the end iterator. -/
def heapFileScanFrom (d : Disk) (bp : BufferPool) (hf : HeapFile) (p : Nat) :
    (Nat × Nat) × BufferPool × Disk :=
  if _h : p < hf.numPages then
    let r := BufferPool.getPage d bp ⟨hf.name, p⟩
    let hp := HeapPage.ofPage hf.td (r.2.1.pages.getD r.1 [])
    let b := hp.begin
    if b ≠ hp.endSlot then ((p, b), r.2.1, r.2.2.1)
    else heapFileScanFrom r.2.2.1 r.2.1 hf (p + 1)
  else ((hf.numPages, 0), bp, d)
termination_by hf.numPages - p
decreasing_by
  omega

/-- HeapFile::next: an iterator at or past numPages normalizes to the end
sentinel; otherwise advance within the current page, then scan the
following pages. -/
def heapFileNext (d : Disk) (bp : BufferPool) (hf : HeapFile) (it : Nat × Nat) :
    (Nat × Nat) × BufferPool × Disk :=
  if hf.numPages ≤ it.1 then ((hf.numPages, 0), bp, d)
  else
    let r := BufferPool.getPage d bp ⟨hf.name, it.1⟩
    let hp := HeapPage.ofPage hf.td (r.2.1.pages.getD r.1 [])
    let s := hp.nextSlot it.2
    if s ≠ hp.endSlot then ((it.1, s), r.2.1, r.2.2.1)
    else heapFileScanFrom r.2.2.1 r.2.1 hf (it.1 + 1)

/-- C9: inserting a schema-incompatible tuple into a heap file fails with
the schema error and leaves everything untouched: same pages, same dirty
set, same page count, same disk. -/
theorem heapFile_insert_incompatible_spec (d : Disk) (bp : BufferPool) (hf : HeapFile)
    (t : Tuple) (hc : hf.td.compatible t = false) :
    heapFileInsertTuple d bp hf t = ((hf, bp, d), some .schemaIncompatible) ∧
    (heapFileInsertTuple d bp hf t).1.1.numPages = hf.numPages ∧
    (heapFileInsertTuple d bp hf t).1.2.1.pages = bp.pages ∧
    (heapFileInsertTuple d bp hf t).1.2.1.dirty = bp.dirty ∧
    (heapFileInsertTuple d bp hf t).1.2.2 = d := by
  have heq : heapFileInsertTuple d bp hf t = ((hf, bp, d), some .schemaIncompatible) := by
    unfold heapFileInsertTuple
    rw [if_pos]
    simp [hc]
  exact ⟨heq, by rw [heq], by rw [heq], by rw [heq], by rw [heq]⟩

/-- C9 witness: a CHAR field where an INT is declared. -/
theorem heapFile_insert_incompatible_witness :
    let hf : HeapFile := ⟨"f", ⟨[type_t.INT], ["id"]⟩, 0⟩
    let t : Tuple := [field_t.fChar []]
    heapFileInsertTuple disk0 (mkBufferPool 1) hf t =
      ((hf, mkBufferPool 1, disk0), some .schemaIncompatible) ∧
    (heapFileInsertTuple disk0 (mkBufferPool 1) hf t).1.1.numPages = hf.numPages ∧
    (heapFileInsertTuple disk0 (mkBufferPool 1) hf t).1.2.1.pages = (mkBufferPool 1).pages ∧
    (heapFileInsertTuple disk0 (mkBufferPool 1) hf t).1.2.1.dirty = (mkBufferPool 1).dirty ∧
    (heapFileInsertTuple disk0 (mkBufferPool 1) hf t).1.2.2 = disk0 := by
  exact heapFile_insert_incompatible_spec disk0 (mkBufferPool 1) _ _ (by decide)

/-- C10: HeapFile::next on an iterator whose page is at or past numPages
does not fail: it normalizes the iterator to (numPages, 0), which equals
the end iterator, and touches neither the pool nor the disk. -/
theorem heapFile_next_pastEnd_spec (d : Disk) (bp : BufferPool) (hf : HeapFile)
    (it : Nat × Nat) (h : hf.numPages ≤ it.1) :
    heapFileNext d bp hf it = ((hf.numPages, 0), bp, d) ∧
    (heapFileNext d bp hf it).1 = heapFileEnd hf := by
  have heq : heapFileNext d bp hf it = ((hf.numPages, 0), bp, d) := by
    unfold heapFileNext
    rw [if_pos h]
  exact ⟨heq, by rw [heq]; rfl⟩

/-- C10 witness: a three-page file with the iterator on page 7. -/
theorem heapFile_next_pastEnd_witness :
    let hf : HeapFile := ⟨"f", ⟨[type_t.INT], ["id"]⟩, 3⟩
    heapFileNext disk0 (mkBufferPool 1) hf (7, 2) =
      ((hf.numPages, 0), mkBufferPool 1, disk0) ∧
    (heapFileNext disk0 (mkBufferPool 1) hf (7, 2)).1 = heapFileEnd hf := by
  exact heapFile_next_pastEnd_spec disk0 (mkBufferPool 1) _ (7, 2) (by decide)
